import Mathlib

/-!
Verification of the katha session-browser core against its specification.

Strings are modelled as `List Char`.  Rust's `str::replace` (for a nonempty
pattern) is modelled by `replaceList`, which replaces all non-overlapping
occurrences of the pattern left to right.
-/

namespace Katha

/-- Model of Rust `str::replace` for a nonempty pattern: scan left to right,
on a match emit the replacement and continue after the matched occurrence
(non-overlapping), otherwise keep the head character.  (For the empty
pattern this model keeps the string unchanged; every pattern used by the
code under verification is nonempty.) -/
def replaceList (s pat rep : List Char) : List Char :=
  match s with
  | [] => []
  | x :: xs =>
    if h : pat ≠ [] ∧ pat.isPrefixOf (x :: xs) then
      rep ++ replaceList ((x :: xs).drop pat.length) pat rep
    else
      x :: replaceList xs pat rep
termination_by s.length
decreasing_by
  · simp only [List.length_drop, List.length_cons]
    have hpos : 0 < pat.length := List.length_pos.mpr h.1
    omega
  · simp

/-- `ClaudePaths::encode_project_path` from src/config/paths.rs:
percent escapes, `%` first, then `/`, `.`, `_`, `-`. -/
def encode_project_path (s : List Char) : List Char :=
  replaceList
    (replaceList
      (replaceList
        (replaceList
          (replaceList s ['%'] ['%', '2', '5'])
          ['/'] ['%', '2', 'F'])
        ['.'] ['%', '2', 'E'])
      ['_'] ['%', '5', 'F'])
    ['-'] ['%', '2', 'D']

/-- `ClaudePaths::decode_project_path` from src/config/paths.rs:
unescapes `%2F`, `%2E`, `%5F`, `%2D`, then `%25` last. -/
def decode_project_path (s : List Char) : List Char :=
  replaceList
    (replaceList
      (replaceList
        (replaceList
          (replaceList s ['%', '2', 'F'] ['/'])
          ['%', '2', 'E'] ['.'])
        ['%', '5', 'F'] ['_'])
      ['%', '2', 'D'] ['-'])
    ['%', '2', '5'] ['%']

/-- Concatenation of the images of a token function over a string; used to
describe the encoder as a per-character token expansion. -/
def concatMap (f : Char → List Char) : List Char → List Char
  | [] => []
  | x :: xs => f x ++ concatMap f xs

theorem concatMap_nil (f : Char → List Char) : concatMap f [] = [] := rfl

theorem concatMap_cons (f : Char → List Char) (x : Char) (xs : List Char) :
    concatMap f (x :: xs) = f x ++ concatMap f xs := rfl

theorem concatMap_congr {f g : Char → List Char} (h : ∀ c, f c = g c) :
    ∀ s, concatMap f s = concatMap g s
  | [] => rfl
  | x :: xs => by rw [concatMap_cons, concatMap_cons, h x, concatMap_congr h xs]

theorem concatMap_id : ∀ s : List Char, concatMap (fun c => [c]) s = s
  | [] => rfl
  | x :: xs => by rw [concatMap_cons, concatMap_id xs]; rfl

theorem replaceList_nil (pat rep : List Char) : replaceList [] pat rep = [] := by
  simp [replaceList]

theorem replaceList_cons_of_not_prefix {pat : List Char} (rep : List Char)
    {x : Char} {xs : List Char} (h : ¬ pat <+: (x :: xs)) :
    replaceList (x :: xs) pat rep = x :: replaceList xs pat rep := by
  rw [replaceList]
  simp only [List.isPrefixOf_iff_prefix]
  rw [dif_neg (by tauto)]

theorem replaceList_append_self {pat : List Char} (rep : List Char) (hne : pat ≠ [])
    (u : List Char) :
    replaceList (pat ++ u) pat rep = rep ++ replaceList u pat rep := by
  obtain ⟨p, ps, rfl⟩ : ∃ p ps, pat = p :: ps := by
    cases pat with
    | nil => exact absurd rfl hne
    | cons p ps => exact ⟨p, ps, rfl⟩
  rw [List.cons_append, replaceList]
  rw [dif_pos ⟨hne, by
    simp only [List.isPrefixOf_iff_prefix, ← List.cons_append]
    exact List.prefix_append _ _⟩]
  congr 1
  rw [← List.cons_append, List.drop_left]

theorem replaceList_singleton (c : Char) (rep : List Char) :
    ∀ s : List Char,
      replaceList s [c] rep = concatMap (fun x => if x = c then rep else [x]) s
  | [] => by rw [replaceList_nil]; rfl
  | x :: xs => by
    rw [concatMap_cons, replaceList]
    by_cases hx : x = c
    · rw [dif_pos ⟨by simp,
        by simp [List.isPrefixOf_iff_prefix, List.cons_prefix_cons, hx]⟩]
      have hdrop : List.drop (List.length [c]) (x :: xs) = xs := rfl
      rw [hdrop, if_pos hx, replaceList_singleton c rep xs]
    · rw [dif_neg (by
        rintro ⟨-, hp⟩
        rw [List.isPrefixOf_iff_prefix, List.cons_prefix_cons] at hp
        exact hx hp.1.symm)]
      rw [if_neg hx, replaceList_singleton c rep xs]
      simp

/-- No occurrence of `pat` can begin strictly inside `t` (at any position of
`t`), whatever follows `t`. -/
def noStartInside (pat t : List Char) : Prop :=
  ∀ i, i < t.length → ¬ pat <+: t.drop i ∧ ¬ t.drop i <+: pat

instance (pat t : List Char) : Decidable (noStartInside pat t) := by
  unfold noStartInside
  infer_instance

theorem noStartInside_singleton {p c : Char} (ps : List Char) (h : c ≠ p) :
    noStartInside (p :: ps) [c] := by
  intro i hi
  have hi0 : i = 0 := by
    simp only [List.length_cons, List.length_nil] at hi
    omega
  subst hi0
  refine ⟨fun hpre => ?_, fun hpre => ?_⟩
  · rw [List.drop_zero] at hpre
    cases ps with
    | nil =>
      rw [List.cons_prefix_cons] at hpre
      exact h hpre.1.symm
    | cons q qs =>
      have := hpre.length_le
      simp at this
  · rw [List.drop_zero, List.cons_prefix_cons] at hpre
    exact h hpre.1

theorem not_prefix_append_of_noStartInside {pat t : List Char}
    (h : noStartInside pat t) {i : Nat} (hi : i < t.length) (rest : List Char) :
    ¬ pat <+: (t.drop i ++ rest) := by
  intro hpre
  have hd : t.drop i <+: t.drop i ++ rest := List.prefix_append _ _
  rcases List.prefix_or_prefix_of_prefix hpre hd with h1 | h1
  · exact (h i hi).1 h1
  · exact (h i hi).2 h1

theorem replaceList_pass {pat : List Char} (rep : List Char) :
    ∀ t : List Char, noStartInside pat t →
      ∀ rest, replaceList (t ++ rest) pat rep = t ++ replaceList rest pat rep
  | [], _, rest => by simp
  | x :: u, h, rest => by
    rw [List.cons_append,
      replaceList_cons_of_not_prefix rep (by
        have h0 := not_prefix_append_of_noStartInside h (i := 0) (by simp) rest
        simpa using h0)]
    rw [replaceList_pass rep u (fun i hi => by
      have := h (i + 1) (by simpa using Nat.succ_lt_succ hi)
      simpa using this) rest]
    rfl

theorem replaceList_concatMap {pat rep : List Char} {f g : Char → List Char}
    (hne : pat ≠ [])
    (hc : ∀ c, (f c = pat ∧ g c = rep) ∨ (g c = f c ∧ noStartInside pat (f c))) :
    ∀ s : List Char, replaceList (concatMap f s) pat rep = concatMap g s
  | [] => by simp [concatMap, replaceList_nil]
  | c :: s => by
    rw [concatMap_cons, concatMap_cons]
    rcases hc c with ⟨hf, hg⟩ | ⟨hg, hno⟩
    · rw [hf, replaceList_append_self rep hne, hg,
        replaceList_concatMap hne hc s]
    · rw [replaceList_pass rep (f c) hno, hg, replaceList_concatMap hne hc s]

theorem concatMap_append (f : Char → List Char) :
    ∀ a b : List Char, concatMap f (a ++ b) = concatMap f a ++ concatMap f b
  | [], _ => rfl
  | x :: xs, b => by
    rw [List.cons_append, concatMap_cons, concatMap_cons, concatMap_append f xs b,
      List.append_assoc]

theorem concatMap_concatMap (f g : Char → List Char) :
    ∀ s : List Char,
      concatMap f (concatMap g s) = concatMap (fun c => concatMap f (g c)) s
  | [] => rfl
  | x :: xs => by
    rw [concatMap_cons, concatMap_cons, concatMap_append, concatMap_concatMap f g xs]

/-- Per-character token stream after the first encoder replace (`%`). -/
def encTok1 (c : Char) : List Char :=
  if c = '%' then ['%', '2', '5'] else [c]

/-- Per-character token stream after the second encoder replace (`/`). -/
def encTok2 (c : Char) : List Char :=
  if c = '%' then ['%', '2', '5']
  else if c = '/' then ['%', '2', 'F']
  else [c]

/-- Per-character token stream after the third encoder replace (`.`). -/
def encTok3 (c : Char) : List Char :=
  if c = '%' then ['%', '2', '5']
  else if c = '/' then ['%', '2', 'F']
  else if c = '.' then ['%', '2', 'E']
  else [c]

/-- Per-character token stream after the fourth encoder replace (`_`). -/
def encTok4 (c : Char) : List Char :=
  if c = '%' then ['%', '2', '5']
  else if c = '/' then ['%', '2', 'F']
  else if c = '.' then ['%', '2', 'E']
  else if c = '_' then ['%', '5', 'F']
  else [c]

/-- Per-character token of the full reversible encoder. -/
def encChar (c : Char) : List Char :=
  if c = '%' then ['%', '2', '5']
  else if c = '/' then ['%', '2', 'F']
  else if c = '.' then ['%', '2', 'E']
  else if c = '_' then ['%', '5', 'F']
  else if c = '-' then ['%', '2', 'D']
  else [c]

theorem enc_stage1 (s : List Char) :
    replaceList s ['%'] ['%', '2', '5'] = concatMap encTok1 s :=
  replaceList_singleton '%' ['%', '2', '5'] s

theorem enc_stage2 (s : List Char) :
    replaceList (concatMap encTok1 s) ['/'] ['%', '2', 'F'] = concatMap encTok2 s := by
  rw [replaceList_singleton, concatMap_concatMap]
  apply concatMap_congr
  intro c
  by_cases h1 : c = '%'
  · subst h1; decide
  by_cases h2 : c = '/'
  · subst h2; decide
  simp [encTok1, encTok2, h1, h2, concatMap]

theorem enc_stage3 (s : List Char) :
    replaceList (concatMap encTok2 s) ['.'] ['%', '2', 'E'] = concatMap encTok3 s := by
  rw [replaceList_singleton, concatMap_concatMap]
  apply concatMap_congr
  intro c
  by_cases h1 : c = '%'
  · subst h1; decide
  by_cases h2 : c = '/'
  · subst h2; decide
  by_cases h3 : c = '.'
  · subst h3; decide
  simp [encTok2, encTok3, h1, h2, h3, concatMap]

theorem enc_stage4 (s : List Char) :
    replaceList (concatMap encTok3 s) ['_'] ['%', '5', 'F'] = concatMap encTok4 s := by
  rw [replaceList_singleton, concatMap_concatMap]
  apply concatMap_congr
  intro c
  by_cases h1 : c = '%'
  · subst h1; decide
  by_cases h2 : c = '/'
  · subst h2; decide
  by_cases h3 : c = '.'
  · subst h3; decide
  by_cases h4 : c = '_'
  · subst h4; decide
  simp [encTok3, encTok4, h1, h2, h3, h4, concatMap]

theorem enc_stage5 (s : List Char) :
    replaceList (concatMap encTok4 s) ['-'] ['%', '2', 'D'] = concatMap encChar s := by
  rw [replaceList_singleton, concatMap_concatMap]
  apply concatMap_congr
  intro c
  by_cases h1 : c = '%'
  · subst h1; decide
  by_cases h2 : c = '/'
  · subst h2; decide
  by_cases h3 : c = '.'
  · subst h3; decide
  by_cases h4 : c = '_'
  · subst h4; decide
  by_cases h5 : c = '-'
  · subst h5; decide
  simp [encTok4, encChar, h1, h2, h3, h4, h5, concatMap]

theorem encode_eq_concatMap (s : List Char) :
    encode_project_path s = concatMap encChar s := by
  unfold encode_project_path
  rw [enc_stage1, enc_stage2, enc_stage3, enc_stage4, enc_stage5]

/-- Token stream after the first decoder replace (`%2F` → `/`). -/
def decTok1 (c : Char) : List Char :=
  if c = '%' then ['%', '2', '5']
  else if c = '/' then ['/']
  else if c = '.' then ['%', '2', 'E']
  else if c = '_' then ['%', '5', 'F']
  else if c = '-' then ['%', '2', 'D']
  else [c]

/-- Token stream after the second decoder replace (`%2E` → `.`). -/
def decTok2 (c : Char) : List Char :=
  if c = '%' then ['%', '2', '5']
  else if c = '/' then ['/']
  else if c = '.' then ['.']
  else if c = '_' then ['%', '5', 'F']
  else if c = '-' then ['%', '2', 'D']
  else [c]

/-- Token stream after the third decoder replace (`%5F` → `_`). -/
def decTok3 (c : Char) : List Char :=
  if c = '%' then ['%', '2', '5']
  else if c = '/' then ['/']
  else if c = '.' then ['.']
  else if c = '_' then ['_']
  else if c = '-' then ['%', '2', 'D']
  else [c]

/-- Token stream after the fourth decoder replace (`%2D` → `-`). -/
def decTok4 (c : Char) : List Char :=
  if c = '%' then ['%', '2', '5']
  else if c = '/' then ['/']
  else if c = '.' then ['.']
  else if c = '_' then ['_']
  else if c = '-' then ['-']
  else [c]

theorem dec_stage1 (s : List Char) :
    replaceList (concatMap encChar s) ['%', '2', 'F'] ['/'] = concatMap decTok1 s := by
  apply replaceList_concatMap (by simp)
  intro c
  by_cases h1 : c = '%'
  · subst h1; right; exact ⟨by decide, by decide⟩
  by_cases h2 : c = '/'
  · subst h2; left; exact ⟨by decide, by decide⟩
  by_cases h3 : c = '.'
  · subst h3; right; exact ⟨by decide, by decide⟩
  by_cases h4 : c = '_'
  · subst h4; right; exact ⟨by decide, by decide⟩
  by_cases h5 : c = '-'
  · subst h5; right; exact ⟨by decide, by decide⟩
  right
  have hf : encChar c = [c] := by simp [encChar, h1, h2, h3, h4, h5]
  have hg : decTok1 c = [c] := by simp [decTok1, h1, h2, h3, h4, h5]
  rw [hf, hg]
  exact ⟨rfl, noStartInside_singleton _ h1⟩

theorem dec_stage2 (s : List Char) :
    replaceList (concatMap decTok1 s) ['%', '2', 'E'] ['.'] = concatMap decTok2 s := by
  apply replaceList_concatMap (by simp)
  intro c
  by_cases h1 : c = '%'
  · subst h1; right; exact ⟨by decide, by decide⟩
  by_cases h2 : c = '/'
  · subst h2; right; exact ⟨by decide, by decide⟩
  by_cases h3 : c = '.'
  · subst h3; left; exact ⟨by decide, by decide⟩
  by_cases h4 : c = '_'
  · subst h4; right; exact ⟨by decide, by decide⟩
  by_cases h5 : c = '-'
  · subst h5; right; exact ⟨by decide, by decide⟩
  right
  have hf : decTok1 c = [c] := by simp [decTok1, h1, h2, h3, h4, h5]
  have hg : decTok2 c = [c] := by simp [decTok2, h1, h2, h3, h4, h5]
  rw [hf, hg]
  exact ⟨rfl, noStartInside_singleton _ h1⟩

theorem dec_stage3 (s : List Char) :
    replaceList (concatMap decTok2 s) ['%', '5', 'F'] ['_'] = concatMap decTok3 s := by
  apply replaceList_concatMap (by simp)
  intro c
  by_cases h1 : c = '%'
  · subst h1; right; exact ⟨by decide, by decide⟩
  by_cases h2 : c = '/'
  · subst h2; right; exact ⟨by decide, by decide⟩
  by_cases h3 : c = '.'
  · subst h3; right; exact ⟨by decide, by decide⟩
  by_cases h4 : c = '_'
  · subst h4; left; exact ⟨by decide, by decide⟩
  by_cases h5 : c = '-'
  · subst h5; right; exact ⟨by decide, by decide⟩
  right
  have hf : decTok2 c = [c] := by simp [decTok2, h1, h2, h3, h4, h5]
  have hg : decTok3 c = [c] := by simp [decTok3, h1, h2, h3, h4, h5]
  rw [hf, hg]
  exact ⟨rfl, noStartInside_singleton _ h1⟩

theorem dec_stage4 (s : List Char) :
    replaceList (concatMap decTok3 s) ['%', '2', 'D'] ['-'] = concatMap decTok4 s := by
  apply replaceList_concatMap (by simp)
  intro c
  by_cases h1 : c = '%'
  · subst h1; right; exact ⟨by decide, by decide⟩
  by_cases h2 : c = '/'
  · subst h2; right; exact ⟨by decide, by decide⟩
  by_cases h3 : c = '.'
  · subst h3; right; exact ⟨by decide, by decide⟩
  by_cases h4 : c = '_'
  · subst h4; right; exact ⟨by decide, by decide⟩
  by_cases h5 : c = '-'
  · subst h5; left; exact ⟨by decide, by decide⟩
  right
  have hf : decTok3 c = [c] := by simp [decTok3, h1, h2, h3, h4, h5]
  have hg : decTok4 c = [c] := by simp [decTok4, h1, h2, h3, h4, h5]
  rw [hf, hg]
  exact ⟨rfl, noStartInside_singleton _ h1⟩

theorem dec_stage5 (s : List Char) :
    replaceList (concatMap decTok4 s) ['%', '2', '5'] ['%'] =
      concatMap (fun c => [c]) s := by
  apply replaceList_concatMap (by simp)
  intro c
  by_cases h1 : c = '%'
  · subst h1; left; exact ⟨by decide, by decide⟩
  by_cases h2 : c = '/'
  · subst h2; right; exact ⟨by decide, by decide⟩
  by_cases h3 : c = '.'
  · subst h3; right; exact ⟨by decide, by decide⟩
  by_cases h4 : c = '_'
  · subst h4; right; exact ⟨by decide, by decide⟩
  by_cases h5 : c = '-'
  · subst h5; right; exact ⟨by decide, by decide⟩
  right
  have hf : decTok4 c = [c] := by simp [decTok4, h1, h2, h3, h4, h5]
  rw [hf]
  exact ⟨rfl, noStartInside_singleton _ h1⟩

/-- C1: for every input string `s`, the reversible path codec of
`ClaudePaths` satisfies `decode_project_path (encode_project_path s) = s`;
in particular this holds for all strings over `[A-Za-z0-9/._%-]`. -/
theorem c1_encode_decode_roundtrip (s : List Char) :
    decode_project_path (encode_project_path s) = s := by
  unfold decode_project_path
  rw [encode_eq_concatMap, dec_stage1, dec_stage2, dec_stage3, dec_stage4,
    dec_stage5, concatMap_id]

theorem encode_decode_sample :
    decode_project_path (encode_project_path
      ('/' :: 'a' :: '.' :: 'b' :: '_' :: 'c' :: '-' :: '%' :: '2' :: 'F' :: [])) =
      ('/' :: 'a' :: '.' :: 'b' :: '_' :: 'c' :: '-' :: '%' :: '2' :: 'F' :: []) := by
  simp +decide [encode_project_path, decode_project_path, replaceList]

/-! ## Search and filter engine (src/search) -/

/-- `DateTime<Utc>` is modelled as a point on an integer timeline. -/
abbrev DateTime := Int

/-- Char-level model of Rust `str::to_lowercase` (exact on ASCII model
names; the search and filter claims do not depend on the case table). -/
def toLowercase (s : List Char) : List Char := s.map Char.toLower

/-- Model of Rust `str::contains` for a string pattern: some contiguous
substring of `hay` equals `pat`. -/
def strContains (hay pat : List Char) : Bool :=
  if pat.isPrefixOf hay then true
  else
    match hay with
    | [] => false
    | _ :: t => strContains t pat

/-- `SearchQuery` from src/search/query.rs. -/
structure SearchQuery where
  text : List Char
  case_sensitive : Bool

/-- `SearchQuery::is_empty`. -/
def SearchQuery.is_empty (q : SearchQuery) : Bool := q.text.isEmpty

/-- `SearchQuery::matches`. -/
def SearchQuery.matches (q : SearchQuery) (target : List Char) : Bool :=
  if q.text.isEmpty then true
  else if q.case_sensitive then strContains target q.text
  else strContains (toLowercase target) (toLowercase q.text)

/-- `DateRange` from src/search/filter.rs (both bounds inclusive). -/
structure DateRange where
  from_ : Option DateTime
  to_ : Option DateTime

/-- `DateRange::is_set`. -/
def DateRange.is_set (r : DateRange) : Bool := r.from_.isSome || r.to_.isSome

/-- `DateRange::contains`: false when `dt < from` or `dt > to`. -/
def DateRange.contains (r : DateRange) (dt : DateTime) : Bool :=
  (match r.from_ with
   | some f => !(dt < f : Bool)
   | none => true)
  && (match r.to_ with
   | some t => !(t < dt : Bool)
   | none => true)

/-- `FilterCriteria` from src/search/filter.rs. -/
structure FilterCriteria where
  date_range : DateRange
  project_filter : Option (List Char)

/-- `FilterCriteria::is_set`. -/
def FilterCriteria.is_set (c : FilterCriteria) : Bool :=
  c.date_range.is_set || c.project_filter.isSome

/-- `SessionListItem` from src/tea/model.rs (the fields the search engine
reads plus the identifying ones). -/
structure SessionListItem where
  session_id : List Char
  project_name : List Char
  project_path : List Char
  latest_user_message : List Char
  formatted_time : List Char
  datetime : DateTime

/-- `SearchEngine::matches_criteria` from src/search/engine.rs. -/
def matches_criteria (session : SessionListItem) (criteria : FilterCriteria) : Bool :=
  if criteria.date_range.is_set && !(criteria.date_range.contains session.datetime) then
    false
  else
    match criteria.project_filter with
    | some pf =>
      if !pf.isEmpty
          && !(strContains (toLowercase session.project_name) (toLowercase pf)) then
        false
      else
        true
    | none => true

/-- `iter().enumerate().filter(p).map(i)`: the indices (starting at `i`) of
the elements satisfying `p`, in order. -/
def matchingIndices (p : SessionListItem → Bool) :
    List SessionListItem → Nat → List Nat
  | [], _ => []
  | x :: xs, i =>
    if p x then i :: matchingIndices p xs (i + 1) else matchingIndices p xs (i + 1)

/-- `SearchEngine::search` from src/search/engine.rs. -/
def SearchEngine.search (sessions : List SessionListItem) (query : SearchQuery) :
    List Nat :=
  if query.is_empty then List.range sessions.length
  else
    matchingIndices
      (fun s => query.matches s.project_name || query.matches s.latest_user_message)
      sessions 0

/-- `SearchEngine::filter` from src/search/engine.rs. -/
def SearchEngine.filter (sessions : List SessionListItem) (criteria : FilterCriteria) :
    List Nat :=
  if !criteria.is_set then List.range sessions.length
  else matchingIndices (fun s => matches_criteria s criteria) sessions 0

/-- `SearchEngine::search_and_filter` from src/search/engine.rs. -/
def SearchEngine.search_and_filter (sessions : List SessionListItem)
    (query : SearchQuery) (criteria : FilterCriteria) : List Nat :=
  matchingIndices
    (fun s =>
      (query.is_empty || query.matches s.project_name
          || query.matches s.latest_user_message)
        && (!criteria.is_set || matches_criteria s criteria))
    sessions 0

theorem matchingIndices_congr {p q : SessionListItem → Bool}
    (h : ∀ s, p s = q s) :
    ∀ ss i, matchingIndices p ss i = matchingIndices q ss i
  | [], _ => rfl
  | x :: xs, i => by
    simp only [matchingIndices, h x, matchingIndices_congr h xs (i + 1)]

theorem matchingIndices_true {p : SessionListItem → Bool} (h : ∀ s, p s = true) :
    ∀ ss i, matchingIndices p ss i = List.range' i ss.length
  | [], _ => rfl
  | x :: xs, i => by
    simp only [matchingIndices, h x, if_pos, List.length_cons, List.range'_succ,
      matchingIndices_true h xs (i + 1)]

theorem mem_matchingIndices_bounds {p : SessionListItem → Bool} :
    ∀ (ss : List SessionListItem) (i : Nat) (j : Nat),
      j ∈ matchingIndices p ss i → i ≤ j ∧ j < i + ss.length
  | [], _, _, h => by simp [matchingIndices] at h
  | x :: xs, i, j, h => by
    simp only [matchingIndices] at h
    by_cases hp : p x
    · rw [if_pos hp] at h
      rcases List.mem_cons.mp h with rfl | h2
      · simp
      · have := mem_matchingIndices_bounds xs (i + 1) j h2
        constructor <;> [omega; (simp only [List.length_cons]; omega)]
    · rw [if_neg hp] at h
      have := mem_matchingIndices_bounds xs (i + 1) j h
      constructor <;> [omega; (simp only [List.length_cons]; omega)]

theorem matchingIndices_and_eq_filter (p q : SessionListItem → Bool) :
    ∀ (ss : List SessionListItem) (i : Nat),
      matchingIndices (fun s => p s && q s) ss i =
        (matchingIndices p ss i).filter
          (fun j => decide (j ∈ matchingIndices q ss i))
  | [], _ => rfl
  | x :: xs, i => by
    have IH := matchingIndices_and_eq_filter p q xs (i + 1)
    have hup : ∀ j ∈ matchingIndices q xs (i + 1), i + 1 ≤ j := fun j hj =>
      (mem_matchingIndices_bounds xs (i + 1) j hj).1
    have hfilter_shift :
        ∀ (l : List Nat), (∀ j ∈ l, i + 1 ≤ j) →
          l.filter (fun j => decide (j ∈ i :: matchingIndices q xs (i + 1))) =
            l.filter (fun j => decide (j ∈ matchingIndices q xs (i + 1))) := by
      intro l hl
      apply List.filter_congr
      intro j hj
      have hji : j ≠ i := by have := hl j hj; omega
      simp [List.mem_cons, hji]
    have hpb : ∀ j ∈ matchingIndices p xs (i + 1), i + 1 ≤ j := fun j hj =>
      (mem_matchingIndices_bounds xs (i + 1) j hj).1
    cases hpx : p x <;> cases hqx : q x
    · simp only [matchingIndices, hpx, hqx, Bool.false_and, Bool.false_eq_true,
        if_false, IH]
    · simp only [matchingIndices, hpx, hqx, Bool.false_and, Bool.false_eq_true,
        if_false, if_true, IH]
      rw [hfilter_shift _ hpb]
    · simp only [matchingIndices, hpx, hqx, Bool.true_and, Bool.false_eq_true,
        if_false, if_true, IH]
      rw [List.filter_cons_of_neg (by
        simp only [decide_eq_true_eq]
        intro hmem
        have := hup i hmem
        omega)]
    · simp only [matchingIndices, hpx, hqx, Bool.true_and, if_true, IH]
      rw [List.filter_cons_of_pos (by simp), hfilter_shift _ hpb]

theorem search_eq_matchingIndices (ss : List SessionListItem) (q : SearchQuery) :
    SearchEngine.search ss q =
      matchingIndices
        (fun s => q.is_empty || q.matches s.project_name
          || q.matches s.latest_user_message) ss 0 := by
  unfold SearchEngine.search
  cases hq : q.is_empty
  · rw [if_neg (by simp [hq])]
    exact matchingIndices_congr (fun s => by simp) ss 0
  · rw [if_pos (by simp [hq]), List.range_eq_range']
    exact (matchingIndices_true (fun s => by simp) ss 0).symm

theorem filter_eq_matchingIndices (ss : List SessionListItem) (c : FilterCriteria) :
    SearchEngine.filter ss c =
      matchingIndices (fun s => !c.is_set || matches_criteria s c) ss 0 := by
  unfold SearchEngine.filter
  cases hc : c.is_set
  · rw [if_pos (by simp [hc]), List.range_eq_range']
    exact (matchingIndices_true (fun s => by simp) ss 0).symm
  · rw [if_neg (by simp [hc])]
    exact matchingIndices_congr (fun s => by simp) ss 0

/-- C2: with an empty query `SearchEngine::search` returns all indices
`0..len` in original order; with unset criteria `SearchEngine::filter`
returns all indices; and `SearchEngine::search_and_filter` equals the
order-preserving intersection of `search` and `filter`, each side matching
everything when its own input is unset. -/
theorem c2_search_filter_and_intersection :
    (∀ (ss : List SessionListItem) (q : SearchQuery),
        q.is_empty = true → SearchEngine.search ss q = List.range ss.length)
    ∧ (∀ (ss : List SessionListItem) (c : FilterCriteria),
        c.is_set = false → SearchEngine.filter ss c = List.range ss.length)
    ∧ (∀ (ss : List SessionListItem) (q : SearchQuery) (c : FilterCriteria),
        SearchEngine.search_and_filter ss q c =
          (SearchEngine.search ss q).filter
            (fun j => decide (j ∈ SearchEngine.filter ss c))) := by
  refine ⟨?_, ?_, ?_⟩
  · intro ss q hq
    unfold SearchEngine.search
    rw [if_pos (by simp [hq])]
  · intro ss c hc
    unfold SearchEngine.filter
    rw [if_pos (by simp [hc])]
  · intro ss q c
    rw [search_eq_matchingIndices, filter_eq_matchingIndices]
    exact matchingIndices_and_eq_filter _ _ ss 0

theorem c2_search_filter_and_intersection_witness :
    SearchEngine.search
        [⟨['a'], ['p'], ['q'], ['m'], ['t'], 0⟩] ⟨[], false⟩ = [0]
    ∧ SearchEngine.filter
        [⟨['a'], ['p'], ['q'], ['m'], ['t'], 0⟩] ⟨⟨none, none⟩, none⟩ = [0] := by
  constructor
  · rw [c2_search_filter_and_intersection.1 _ _ (by decide)]
    decide
  · rw [c2_search_filter_and_intersection.2.1 _ _ (by decide)]
    decide

theorem matchingIndices_chain (p : SessionListItem → Bool) :
    ∀ (ss : List SessionListItem) (i : Nat),
      List.Chain' (· < ·) (matchingIndices p ss i)
  | [], _ => by simp [matchingIndices]
  | x :: xs, i => by
    simp only [matchingIndices]
    by_cases hp : p x
    · rw [if_pos hp, List.chain'_cons']
      refine ⟨fun b hb => ?_, matchingIndices_chain p xs (i + 1)⟩
      have hmem : b ∈ matchingIndices p xs (i + 1) := List.mem_of_mem_head? hb
      have := (mem_matchingIndices_bounds xs (i + 1) b hmem).1
      omega
    · rw [if_neg hp]
      exact matchingIndices_chain p xs (i + 1)

theorem matchingIndices_all_lt (p : SessionListItem → Bool)
    (ss : List SessionListItem) :
    (matchingIndices p ss 0).all (fun j => decide (j < ss.length)) = true := by
  rw [List.all_eq_true]
  intro j hj
  have := (mem_matchingIndices_bounds ss 0 j hj).2
  simpa using (by omega : j < ss.length)

/-- C10: the index lists returned by `SearchEngine::search`,
`SearchEngine::filter` and `SearchEngine::search_and_filter` are strictly
increasing and every element is a valid index into the input list. -/
theorem c10_engine_indices_increasing_and_in_bounds :
    ∀ (ss : List SessionListItem) (q : SearchQuery) (c : FilterCriteria),
      List.Chain' (· < ·) (SearchEngine.search ss q)
      ∧ (SearchEngine.search ss q).all (fun j => decide (j < ss.length)) = true
      ∧ List.Chain' (· < ·) (SearchEngine.filter ss c)
      ∧ (SearchEngine.filter ss c).all (fun j => decide (j < ss.length)) = true
      ∧ List.Chain' (· < ·) (SearchEngine.search_and_filter ss q c)
      ∧ (SearchEngine.search_and_filter ss q c).all
          (fun j => decide (j < ss.length)) = true := by
  intro ss q c
  rw [search_eq_matchingIndices, filter_eq_matchingIndices,
    SearchEngine.search_and_filter]
  exact ⟨matchingIndices_chain _ ss 0, matchingIndices_all_lt _ ss,
    matchingIndices_chain _ ss 0, matchingIndices_all_lt _ ss,
    matchingIndices_chain _ ss 0, matchingIndices_all_lt _ ss⟩

/-! ## Project tree model (src/tea/model.rs) -/

/-- `TreeNodeKind` from src/tea/model.rs. -/
inductive TreeNodeKind
  | Project
  | Session
deriving DecidableEq

/-- `ProjectGroup` from src/tea/model.rs. -/
structure ProjectGroup where
  project_path : List Char
  project_name : List Char
  sessions : List SessionListItem

/-- `TreeItem` from src/tea/model.rs. -/
structure TreeItem where
  kind : TreeNodeKind
  project_path : List Char
  project_name : List Char
  session : Option SessionListItem
  child_count : Nat
  latest_datetime : DateTime
  formatted_time : List Char

/-- `TreeItem::project`.  `Utc::now()`, used only for a group with no
sessions, is an effect of the host clock; it is passed in as `now`.
(Named `projectItem` because `project` is a field name.) -/
def TreeItem.projectItem (now : DateTime) (group : ProjectGroup) : TreeItem :=
  let latest :=
    (group.sessions.head?.map fun s => (s.datetime, s.formatted_time)).getD (now, [])
  { kind := TreeNodeKind.Project
    project_path := group.project_path
    project_name := group.project_name
    session := none
    child_count := group.sessions.length
    latest_datetime := latest.1
    formatted_time := latest.2 }

/-- `TreeItem::session` (named `sessionItem` because `session` is a field
name). -/
def TreeItem.sessionItem (item : SessionListItem) : TreeItem :=
  { kind := TreeNodeKind.Session
    project_path := item.project_path
    project_name := item.project_name
    session := some item
    child_count := 0
    latest_datetime := item.datetime
    formatted_time := item.formatted_time }

/-- The loop body of `Model::rebuild_tree_items`: one project row per group,
followed by its session rows when the group's path is in the expanded set. -/
def treeRows (now : DateTime) (expanded : List (List Char)) :
    List ProjectGroup → List TreeItem
  | [] => []
  | g :: gs =>
    (TreeItem.projectItem now g ::
        (if expanded.contains g.project_path then g.sessions.map TreeItem.sessionItem
         else []))
      ++ treeRows now expanded gs

/-- The slice of `Model` (src/tea/model.rs) that drives the tree view.  The
`HashSet<String>` of expanded project paths is modelled as a duplicate-free
list queried by membership. -/
structure TreeModel where
  selected_index : Nat
  is_filtered : Bool
  project_groups : List ProjectGroup
  filtered_project_groups : List ProjectGroup
  expanded_projects : List (List Char)
  tree_items : List TreeItem

/-- `Model::active_project_groups`. -/
def TreeModel.active_project_groups (m : TreeModel) : List ProjectGroup :=
  if m.is_filtered then m.filtered_project_groups else m.project_groups

/-- `Model::rebuild_tree_items`: rebuild the flattened rows, then clamp
`selected_index` to the last row when it fell out of range (only for a
nonempty row list, as in the source). -/
def TreeModel.rebuild_tree_items (now : DateTime) (m : TreeModel) : TreeModel :=
  let items := treeRows now m.expanded_projects m.active_project_groups
  { m with
    tree_items := items
    selected_index :=
      if !items.isEmpty && decide (m.selected_index ≥ items.length) then
        items.length - 1
      else m.selected_index }

/-- `Model::toggle_project`. -/
def TreeModel.toggle_project (now : DateTime) (m : TreeModel)
    (project_path : List Char) : TreeModel :=
  let expanded :=
    if m.expanded_projects.contains project_path then
      m.expanded_projects.erase project_path
    else
      project_path :: m.expanded_projects
  TreeModel.rebuild_tree_items now { m with expanded_projects := expanded }

theorem treeRows_length (now : DateTime) (expanded : List (List Char)) :
    ∀ gs : List ProjectGroup,
      (treeRows now expanded gs).length =
        gs.length +
          (gs.map fun g =>
            if expanded.contains g.project_path then g.sessions.length else 0).sum
  | [] => by simp [treeRows]
  | g :: gs => by
    simp only [treeRows, List.length_append, List.length_cons, List.map_cons,
      List.sum_cons, treeRows_length now expanded gs]
    cases hc : expanded.contains g.project_path
    · simp only [hc, Bool.false_eq_true, if_false, List.length_nil]
      omega
    · simp only [hc, if_true, List.length_map]
      omega

theorem contains_eq_decide_mem (l : List (List Char)) (a : List Char) :
    l.contains a = decide (a ∈ l) := by
  by_cases h : a ∈ l <;> simp [h]

theorem sum_expanded_single (exp : List (List Char)) (G : ProjectGroup) :
    ∀ gs : List ProjectGroup,
      (gs.map fun g => g.project_path).Nodup → G ∈ gs →
      (∀ g ∈ gs,
        exp.contains g.project_path = (g.project_path == G.project_path)) →
      (gs.map fun g =>
        if exp.contains g.project_path then g.sessions.length else 0).sum =
        G.sessions.length
  | [] => by
    intro _ hmem _
    exact absurd hmem (List.not_mem_nil _)
  | g :: gs => by
    intro hnd hmem hexp
    have hndTail : (gs.map fun g => g.project_path).Nodup :=
      (List.nodup_cons.mp (by simpa using hnd)).2
    have hhead : g.project_path ∉ gs.map fun g => g.project_path :=
      (List.nodup_cons.mp (by simpa using hnd)).1
    simp only [List.map_cons, List.sum_cons]
    rcases List.mem_cons.mp hmem with rfl | hG
    · rw [hexp G (List.mem_cons_self _ _)]
      rw [show (G.project_path == G.project_path) = true by simp]
      rw [if_pos rfl]
      have hz : (gs.map fun g =>
          if exp.contains g.project_path then g.sessions.length else 0).sum = 0 := by
        apply List.sum_eq_zero
        intro x hx
        rcases List.mem_map.mp hx with ⟨g', hg', rfl⟩
        have hne : g'.project_path ≠ G.project_path := by
          intro hEq
          exact hhead (hEq ▸ List.mem_map_of_mem (fun g => g.project_path) hg')
        rw [hexp g' (List.mem_cons_of_mem _ hg')]
        simp [hne]
      omega
    · have hne : g.project_path ≠ G.project_path := by
        intro hEq
        exact hhead (hEq ▸ List.mem_map_of_mem (fun g => g.project_path) hG)
      rw [hexp g (List.mem_cons_self _ _)]
      rw [show (g.project_path == G.project_path) = false by simp [hne]]
      rw [if_neg (by simp)]
      rw [sum_expanded_single exp G gs hndTail hG
        (fun g' hg' => hexp g' (List.mem_cons_of_mem _ hg'))]
      omega

theorem sum_expanded_erase (exp : List (List Char)) (hnd : exp.Nodup)
    (G : ProjectGroup) (hcont : G.project_path ∈ exp) :
    ∀ gs : List ProjectGroup,
      (gs.map fun g => g.project_path).Nodup → G ∈ gs →
      (gs.map fun g =>
        if exp.contains g.project_path then g.sessions.length else 0).sum =
        (gs.map fun g =>
          if (exp.erase G.project_path).contains g.project_path then
            g.sessions.length
          else 0).sum + G.sessions.length
  | [] => by
    intro _ hmem
    exact absurd hmem (List.not_mem_nil _)
  | g :: gs => by
    intro hnd2 hmem
    have hndTail : (gs.map fun g => g.project_path).Nodup :=
      (List.nodup_cons.mp (by simpa using hnd2)).2
    have hhead : g.project_path ∉ gs.map fun g => g.project_path :=
      (List.nodup_cons.mp (by simpa using hnd2)).1
    simp only [List.map_cons, List.sum_cons]
    have congrTail :
        ∀ g' : ProjectGroup, g'.project_path ≠ G.project_path →
          ((exp.erase G.project_path).contains g'.project_path) =
            (exp.contains g'.project_path) := by
      intro g' hne
      rw [contains_eq_decide_mem, contains_eq_decide_mem]
      simp [List.mem_erase_of_ne hne]
    rcases List.mem_cons.mp hmem with rfl | hG
    · rw [contains_eq_decide_mem, if_pos (by simpa using hcont)]
      rw [contains_eq_decide_mem,
        if_neg (by simpa using hnd.not_mem_erase)]
      have htail : (gs.map fun g =>
          if exp.contains g.project_path then g.sessions.length else 0) =
          gs.map fun g =>
            if (exp.erase G.project_path).contains g.project_path then
              g.sessions.length
            else 0 := by
        apply List.map_congr_left
        intro g' hg'
        have hne : g'.project_path ≠ G.project_path := by
          intro hEq
          exact hhead (hEq ▸ List.mem_map_of_mem (fun g => g.project_path) hg')
        rw [congrTail g' hne]
      rw [htail]
      omega
    · have hne : g.project_path ≠ G.project_path := by
        intro hEq
        exact hhead (hEq ▸ List.mem_map_of_mem (fun g => g.project_path) hG)
      rw [congrTail g hne]
      rw [sum_expanded_erase exp hnd G hcont gs hndTail hG]
      omega

theorem sum_if_eq_sum_filter (p : ProjectGroup → Bool) (f : ProjectGroup → Nat) :
    ∀ gs : List ProjectGroup,
      (gs.map fun g => if p g then f g else 0).sum = ((gs.filter p).map f).sum
  | [] => rfl
  | g :: gs => by
    simp only [List.map_cons, List.sum_cons, List.filter_cons]
    cases hp : p g
    · simp only [Bool.false_eq_true, if_false, sum_if_eq_sum_filter p f gs]
      omega
    · simp only [if_true, List.map_cons, List.sum_cons, sum_if_eq_sum_filter p f gs]
  
/-- C3: after a structural rebuild the flattened tree list length equals the
number of project rows plus the sum of the session counts of the expanded
groups; the selection index is re-clamped to `rows.len() - 1` when it was
out of range (for a nonempty row list, as in the source); with exactly one
group `G` expanded the row count is `#groups + G.sessions.len()`; and
collapsing `G` removes exactly `G.sessions.len()` rows. -/
theorem c3_tree_rebuild_invariants :
    (∀ (now : DateTime) (m : TreeModel),
        ((m.rebuild_tree_items now).tree_items).length =
          (m.active_project_groups).length +
            (((m.active_project_groups).filter fun g =>
                m.expanded_projects.contains g.project_path).map fun g =>
              g.sessions.length).sum)
    ∧ (∀ (now : DateTime) (m : TreeModel),
        (m.rebuild_tree_items now).selected_index =
          if (m.rebuild_tree_items now).tree_items.isEmpty then m.selected_index
          else
            min m.selected_index
              (((m.rebuild_tree_items now).tree_items).length - 1))
    ∧ (∀ (now : DateTime) (m : TreeModel) (G : ProjectGroup),
        ((m.active_project_groups).map fun g => g.project_path).Nodup →
        G ∈ m.active_project_groups →
        (∀ g ∈ m.active_project_groups,
          m.expanded_projects.contains g.project_path =
            (g.project_path == G.project_path)) →
        ((m.rebuild_tree_items now).tree_items).length =
          (m.active_project_groups).length + G.sessions.length)
    ∧ (∀ (now : DateTime) (m : TreeModel) (G : ProjectGroup),
        m.expanded_projects.Nodup →
        ((m.active_project_groups).map fun g => g.project_path).Nodup →
        G ∈ m.active_project_groups →
        G.project_path ∈ m.expanded_projects →
        ((m.rebuild_tree_items now).tree_items).length =
          ((m.toggle_project now G.project_path).tree_items).length +
            G.sessions.length) := by
  have hitems : ∀ (now : DateTime) (m : TreeModel),
      (m.rebuild_tree_items now).tree_items =
        treeRows now m.expanded_projects m.active_project_groups := by
    intro now m
    rfl
  refine ⟨?_, ?_, ?_, ?_⟩
  · intro now m
    rw [hitems, treeRows_length, sum_if_eq_sum_filter]
  · intro now m
    show (if !(treeRows now m.expanded_projects m.active_project_groups).isEmpty
          && decide (m.selected_index ≥
            (treeRows now m.expanded_projects m.active_project_groups).length)
        then (treeRows now m.expanded_projects m.active_project_groups).length - 1
        else m.selected_index) = _
    rw [hitems]
    cases hi : (treeRows now m.expanded_projects m.active_project_groups).isEmpty
    · have hlen : (treeRows now m.expanded_projects m.active_project_groups).length ≠ 0 := by
        intro h0
        rw [List.length_eq_zero.mp h0] at hi
        simp at hi
      by_cases hsel : m.selected_index ≥
          (treeRows now m.expanded_projects m.active_project_groups).length
      · rw [if_pos (by simp [hi, hsel]), if_neg (by simp [hi])]
        omega
      · rw [if_neg (by simp [hi, hsel]), if_neg (by simp [hi])]
        omega
    · rw [if_neg (by simp [hi]), if_pos (by simp [hi])]
  · intro now m G hnd hG hexp
    rw [hitems, treeRows_length, sum_expanded_single m.expanded_projects G
      m.active_project_groups hnd hG hexp]
  · intro now m G hndExp hnd hG hmemExp
    have hactive :
        (TreeModel.mk m.selected_index m.is_filtered m.project_groups
          m.filtered_project_groups
          (m.expanded_projects.erase G.project_path) m.tree_items).active_project_groups
          = m.active_project_groups := by
      unfold TreeModel.active_project_groups
      rfl
    unfold TreeModel.toggle_project
    rw [contains_eq_decide_mem, if_pos (by simpa using hmemExp)]
    rw [hitems, hitems]
    show (treeRows now m.expanded_projects m.active_project_groups).length =
      (treeRows now (m.expanded_projects.erase G.project_path)
        (TreeModel.active_project_groups _)).length + G.sessions.length
    rw [show (TreeModel.active_project_groups
        { m with expanded_projects := m.expanded_projects.erase G.project_path })
        = m.active_project_groups from rfl]
    rw [treeRows_length, treeRows_length,
      sum_expanded_erase m.expanded_projects hndExp G hmemExp
        m.active_project_groups hnd hG]
    omega

theorem c3_tree_rebuild_invariants_witness :
    ((TreeModel.rebuild_tree_items 0
        ⟨0, false, [⟨['P'], ['p'], [⟨['s'], ['p'], ['P'], ['m'], ['t'], 0⟩]⟩], [],
          [['P']], []⟩).tree_items).length =
      ((TreeModel.toggle_project 0
          ⟨0, false, [⟨['P'], ['p'], [⟨['s'], ['p'], ['P'], ['m'], ['t'], 0⟩]⟩], [],
            [['P']], []⟩ ['P']).tree_items).length + 1 := by
  exact c3_tree_rebuild_invariants.2.2.2 0
    ⟨0, false, [⟨['P'], ['p'], [⟨['s'], ['p'], ['P'], ['m'], ['t'], 0⟩]⟩], [],
      [['P']], []⟩
    ⟨['P'], ['p'], [⟨['s'], ['p'], ['P'], ['m'], ['t'], 0⟩]⟩
    (by decide)
    (by decide)
    (List.mem_singleton.mpr rfl)
    (by decide)

/-! ## Domain model (src/domain) -/

/-- `Usage` from src/domain/message.rs: four independently optional token
counters. -/
structure Usage where
  input_tokens : Option Nat
  output_tokens : Option Nat
  cache_creation_input_tokens : Option Nat
  cache_read_input_tokens : Option Nat
deriving DecidableEq

/-- `serde_json::Value`.  Objects are association lists with unique keys
(serde_json's map); `numNonU64` stands for any JSON number that is not
`u64`-representable, on which `as_u64` fails. -/
inductive Json where
  | null
  | bool (b : Bool)
  | num (n : Nat)
  | numNonU64
  | str (s : List Char)
  | arr (items : List Json)
  | obj (fields : List (List Char × Json))

/-- `Value::get` for an object key. -/
def Json.get (j : Json) (key : List Char) : Option Json :=
  match j with
  | Json.obj fields => fields.lookup key
  | _ => none

/-- `Value::as_str`. -/
def Json.as_str : Json → Option (List Char)
  | Json.str s => some s
  | _ => none

/-- `Value::as_u64`. -/
def Json.as_u64 : Json → Option Nat
  | Json.num n => some n
  | _ => none

/-- `ImageSource` from src/domain/message.rs. -/
structure ImageSource where
  source_type : List Char
  media_type : Option (List Char)
  data : Option (List Char)

mutual
/-- `ContentBlock` from src/domain/message.rs. -/
inductive ContentBlock where
  | Text (text : List Char)
  | ToolUse (id : List Char) (name : List Char) (input : Json)
  | ToolResult (tool_use_id : List Char) (content : ToolResultContent)
      (is_error : Bool)
  | Image (source : ImageSource)
  | Thinking (thinking : List Char)

/-- `ToolResultContent` from src/domain/message.rs. -/
inductive ToolResultContent where
  | Text (s : List Char)
  | Blocks (blocks : List ContentBlock)
end

/-- `MessageContent` from src/domain/message.rs. -/
inductive MessageContent where
  | Text (s : List Char)
  | Blocks (blocks : List ContentBlock)

/-- `Message` from src/domain/message.rs. -/
structure Message where
  role : List Char
  content : MessageContent
  model : Option (List Char)
  id : Option (List Char)
  stop_reason : Option (List Char)
  usage : Option Usage

/-- `SessionEntry` from src/domain/session.rs. -/
structure SessionEntry where
  parent_uuid : Option (List Char)
  is_sidechain : Bool
  user_type : Option (List Char)
  cwd : Option (List Char)
  session_id : Option (List Char)
  version : Option (List Char)
  git_branch : Option (List Char)
  entry_type : Option (List Char)
  message : Option Message
  uuid : Option (List Char)
  timestamp : Option (List Char)
  request_id : Option (List Char)
  is_meta : Bool
  agent_id : Option (List Char)
  slug : Option (List Char)

/-- `SessionEntry::default()`: every optional field absent, flags false. -/
def SessionEntry.mkDefault : SessionEntry :=
  ⟨none, false, none, none, none, none, none, none, none, none, none, none,
    false, none, none⟩

/-- A `chrono::DateTime<Utc>` as seen by the formatting code: its calendar
fields. -/
structure UtcDateTime where
  year : Nat
  month : Nat
  day : Nat
  hour : Nat
  minute : Nat
deriving DecidableEq

/-- `Session` from src/domain/session.rs. -/
structure Session where
  id : List Char
  project : List Char
  slug : Option (List Char)
  entries : List SessionEntry
  started_at : Option UtcDateTime
  ended_at : Option UtcDateTime

/-! ## Export confirmation guard (src/tea/update.rs and src/tui/app.rs) -/

/-- `ExportFormat` from src/export/mod.rs. -/
inductive ExportFormat where
  | Markdown
  | Json
deriving DecidableEq

/-- `ExportFormat::extension`. -/
def ExportFormat.extension : ExportFormat → List Char
  | ExportFormat.Markdown => ['m', 'd']
  | ExportFormat.Json => ['j', 's', 'o', 'n']

/-- `ExportStatus` from src/tea/model.rs. -/
inductive ExportStatus where
  | Selecting
  | Exporting
  | Success (path : List Char)
  | Error (reason : List Char)
deriving DecidableEq

/-- `ViewMode` from src/tea/model.rs. -/
inductive ViewMode where
  | SessionList
  | SessionDetail
  | Search
  | Filter
  | Help
  | Export
deriving DecidableEq

/-- The slice of `Model` that the export flow reads and writes. -/
structure ExportModel where
  view_mode : ViewMode
  previous_view_mode : ViewMode
  current_session : Option Session
  export_format : ExportFormat
  export_status : Option ExportStatus

/-- The `Message::ConfirmExport` arm of `update` (src/tea/update.rs):
unconditionally sets the export sub-state to `Exporting`. -/
def update_confirm_export (m : ExportModel) : ExportModel :=
  { m with export_status := some ExportStatus.Exporting }

/-- The `ConfirmExport` branch of the event loop (src/tui/app.rs): the
message is applied (and `start_export` spawned) only when a session is
loaded and the export sub-state is exactly `Selecting`; otherwise the model
is left untouched.  The boolean records whether `start_export` ran. -/
def app_handle_confirm_export (m : ExportModel) : ExportModel × Bool :=
  if m.current_session.isSome
      && decide (m.export_status = some ExportStatus.Selecting) then
    (update_confirm_export m, true)
  else
    (m, false)

/-- C4: `ConfirmExport` is a no-op on the state (and starts no export job)
unless the export sub-state is exactly `Selecting` and a session is loaded;
only then does it transition the sub-state to `Exporting`; in particular
while a job is in flight (`Exporting`) a second export can never start. -/
theorem c4_confirm_export_guard :
    (∀ m : ExportModel,
        m.current_session = none ∨ m.export_status ≠ some ExportStatus.Selecting →
        app_handle_confirm_export m = (m, false))
    ∧ (∀ m : ExportModel,
        m.current_session.isSome = true →
        m.export_status = some ExportStatus.Selecting →
        app_handle_confirm_export m =
          ({ m with export_status := some ExportStatus.Exporting }, true))
    ∧ (∀ m : ExportModel,
        m.export_status = some ExportStatus.Exporting →
        app_handle_confirm_export m = (m, false)) := by
  refine ⟨?_, ?_, ?_⟩
  · intro m hm
    unfold app_handle_confirm_export
    rcases hm with hm | hm
    · rw [if_neg (by simp [hm])]
    · rw [if_neg (by simp [hm])]
  · intro m h1 h2
    unfold app_handle_confirm_export
    rw [if_pos (by simp [h1, h2])]
    rfl
  · intro m hm
    unfold app_handle_confirm_export
    rw [if_neg (by simp [hm])]

theorem c4_confirm_export_guard_witness :
    app_handle_confirm_export
        ⟨ViewMode.Export, ViewMode.SessionList,
          some ⟨['i'], ['p'], none, [], none, none⟩, ExportFormat.Markdown,
          some ExportStatus.Exporting⟩ =
      (⟨ViewMode.Export, ViewMode.SessionList,
          some ⟨['i'], ['p'], none, [], none, none⟩, ExportFormat.Markdown,
          some ExportStatus.Exporting⟩, false) :=
  c4_confirm_export_guard.2.2 _ rfl

/-! ## Source-B model backfill (src/data/codex_session_reader.rs) -/

/-- The literal role string checked by the reader. -/
def assistantStr : List Char := ['a', 's', 's', 'i', 's', 't', 'a', 'n', 't']

/-- Whether an entry carries an assistant message. -/
def isAssistantMsg (e : SessionEntry) : Bool :=
  match e.message with
  | some msg => decide (msg.role = assistantStr)
  | none => false

/-- Whether an entry's message carries a model name. -/
def entryHasModel (e : SessionEntry) : Bool :=
  match e.message with
  | some msg => msg.model.isSome
  | none => false

/-- The model name attached to an entry's message, when any. -/
def entryModel (e : SessionEntry) : Option (List Char) :=
  match e.message with
  | some msg => msg.model
  | none => none

/-- One directional pass of `backfill_assistant_models`: walk the entries
carrying the last seen assistant model; an assistant message with a model
updates the carried value, one without a model inherits the carried value
when present.  Non-assistant entries and entries without a message are left
alone. -/
def forward_fill (last : Option (List Char)) : List SessionEntry → List SessionEntry
  | [] => []
  | e :: rest =>
    match e.message with
    | none => e :: forward_fill last rest
    | some msg =>
      if msg.role = assistantStr then
        match msg.model with
        | some m => e :: forward_fill (some m) rest
        | none =>
          match last with
          | some m =>
            { e with message := some { msg with model := some m } } ::
              forward_fill last rest
          | none => e :: forward_fill last rest
      else e :: forward_fill last rest

/-- The carried accumulator of `forward_fill` after a block of entries. -/
def ffAcc (last : Option (List Char)) : List SessionEntry → Option (List Char)
  | [] => last
  | e :: rest =>
    match e.message with
    | none => ffAcc last rest
    | some msg =>
      if msg.role = assistantStr then
        match msg.model with
        | some m => ffAcc (some m) rest
        | none => ffAcc last rest
      else ffAcc last rest

/-- `backfill_assistant_models`: the forward pass, then the same pass over
the reversed list (the `iter_mut().rev()` loop), restoring order. -/
def backfill_assistant_models (entries : List SessionEntry) : List SessionEntry :=
  (forward_fill none ((forward_fill none entries).reverse)).reverse

theorem forward_fill_cons_nomsg {e : SessionEntry} (hmsg : e.message = none)
    (last : Option (List Char)) (rest : List SessionEntry) :
    forward_fill last (e :: rest) = e :: forward_fill last rest := by
  simp [forward_fill, hmsg]

theorem forward_fill_cons_nonasst {e : SessionEntry} {msg : Message}
    (hmsg : e.message = some msg) (hrole : ¬ msg.role = assistantStr)
    (last : Option (List Char)) (rest : List SessionEntry) :
    forward_fill last (e :: rest) = e :: forward_fill last rest := by
  simp [forward_fill, hmsg, hrole]

theorem forward_fill_cons_model {e : SessionEntry} {msg : Message} {m : List Char}
    (hmsg : e.message = some msg) (hrole : msg.role = assistantStr)
    (hmod : msg.model = some m)
    (last : Option (List Char)) (rest : List SessionEntry) :
    forward_fill last (e :: rest) = e :: forward_fill (some m) rest := by
  simp [forward_fill, hmsg, hrole, hmod]

theorem forward_fill_cons_fill {e : SessionEntry} {msg : Message}
    (hmsg : e.message = some msg) (hrole : msg.role = assistantStr)
    (hmod : msg.model = none) (m0 : List Char) (rest : List SessionEntry) :
    forward_fill (some m0) (e :: rest) =
      { e with message := some { msg with model := some m0 } } ::
        forward_fill (some m0) rest := by
  simp [forward_fill, hmsg, hrole, hmod]

theorem forward_fill_cons_nofill {e : SessionEntry} {msg : Message}
    (hmsg : e.message = some msg) (hrole : msg.role = assistantStr)
    (hmod : msg.model = none) (rest : List SessionEntry) :
    forward_fill none (e :: rest) = e :: forward_fill none rest := by
  simp [forward_fill, hmsg, hrole, hmod]

theorem ffAcc_cons_nomsg {e : SessionEntry} (hmsg : e.message = none)
    (last : Option (List Char)) (rest : List SessionEntry) :
    ffAcc last (e :: rest) = ffAcc last rest := by
  simp [ffAcc, hmsg]

theorem ffAcc_cons_nonasst {e : SessionEntry} {msg : Message}
    (hmsg : e.message = some msg) (hrole : ¬ msg.role = assistantStr)
    (last : Option (List Char)) (rest : List SessionEntry) :
    ffAcc last (e :: rest) = ffAcc last rest := by
  simp [ffAcc, hmsg, hrole]

theorem ffAcc_cons_model {e : SessionEntry} {msg : Message} {m : List Char}
    (hmsg : e.message = some msg) (hrole : msg.role = assistantStr)
    (hmod : msg.model = some m)
    (last : Option (List Char)) (rest : List SessionEntry) :
    ffAcc last (e :: rest) = ffAcc (some m) rest := by
  simp [ffAcc, hmsg, hrole, hmod]

theorem ffAcc_cons_nomodel {e : SessionEntry} {msg : Message}
    (hmsg : e.message = some msg) (hrole : msg.role = assistantStr)
    (hmod : msg.model = none)
    (last : Option (List Char)) (rest : List SessionEntry) :
    ffAcc last (e :: rest) = ffAcc last rest := by
  simp [ffAcc, hmsg, hrole, hmod]

theorem forward_fill_filled_of_some (m0 : List Char) :
    ∀ es : List SessionEntry, ∀ e ∈ forward_fill (some m0) es,
      isAssistantMsg e = true → entryHasModel e = true
  | [], e, he => by simp [forward_fill] at he
  | e0 :: rest, e, he => by
    intro hasst
    rcases hmsg : e0.message with - | msg
    · rw [forward_fill_cons_nomsg hmsg] at he
      rcases List.mem_cons.mp he with rfl | htail
      · simp [isAssistantMsg, hmsg] at hasst
      · exact forward_fill_filled_of_some m0 rest e htail hasst
    · by_cases hrole : msg.role = assistantStr
      · rcases hmod : msg.model with - | m
        · rw [forward_fill_cons_fill hmsg hrole hmod] at he
          rcases List.mem_cons.mp he with rfl | htail
          · simp [entryHasModel]
          · exact forward_fill_filled_of_some m0 rest e htail hasst
        · rw [forward_fill_cons_model hmsg hrole hmod] at he
          rcases List.mem_cons.mp he with rfl | htail
          · simp [entryHasModel, hmsg, hmod]
          · exact forward_fill_filled_of_some m rest e htail hasst
      · rw [forward_fill_cons_nonasst hmsg hrole] at he
        rcases List.mem_cons.mp he with rfl | htail
        · simp [isAssistantMsg, hmsg] at hasst
          exact absurd hasst hrole
        · exact forward_fill_filled_of_some m0 rest e htail hasst

theorem forward_fill_id_of_filled (last : Option (List Char)) :
    ∀ es : List SessionEntry,
      (∀ e ∈ es, isAssistantMsg e = true → entryHasModel e = true) →
      forward_fill last es = es
  | [], _ => rfl
  | e0 :: rest, h => by
    rcases hmsg : e0.message with - | msg
    · rw [forward_fill_cons_nomsg hmsg,
        forward_fill_id_of_filled last rest
          (fun e he => h e (List.mem_cons_of_mem _ he))]
    · by_cases hrole : msg.role = assistantStr
      · have hfill : entryHasModel e0 = true :=
          h e0 (List.mem_cons_self _ _) (by simp [isAssistantMsg, hmsg, hrole])
        rcases hmod : msg.model with - | m
        · simp [entryHasModel, hmsg, hmod] at hfill
        · rw [forward_fill_cons_model hmsg hrole hmod,
            forward_fill_id_of_filled (some m) rest
              (fun e he => h e (List.mem_cons_of_mem _ he))]
      · rw [forward_fill_cons_nonasst hmsg hrole,
          forward_fill_id_of_filled last rest
            (fun e he => h e (List.mem_cons_of_mem _ he))]

theorem forward_fill_id_of_unmodeled :
    ∀ es : List SessionEntry,
      (∀ e ∈ es, isAssistantMsg e = true → entryHasModel e = false) →
      forward_fill none es = es
  | [], _ => rfl
  | e0 :: rest, h => by
    rcases hmsg : e0.message with - | msg
    · rw [forward_fill_cons_nomsg hmsg,
        forward_fill_id_of_unmodeled rest
          (fun e he => h e (List.mem_cons_of_mem _ he))]
    · by_cases hrole : msg.role = assistantStr
      · have hempty : entryHasModel e0 = false :=
          h e0 (List.mem_cons_self _ _) (by simp [isAssistantMsg, hmsg, hrole])
        rcases hmod : msg.model with - | m
        · rw [forward_fill_cons_nofill hmsg hrole hmod,
            forward_fill_id_of_unmodeled rest
              (fun e he => h e (List.mem_cons_of_mem _ he))]
        · simp [entryHasModel, hmsg, hmod] at hempty
      · rw [forward_fill_cons_nonasst hmsg hrole,
          forward_fill_id_of_unmodeled rest
            (fun e he => h e (List.mem_cons_of_mem _ he))]

theorem forward_fill_append (last : Option (List Char)) :
    ∀ a b : List SessionEntry,
      forward_fill last (a ++ b) =
        forward_fill last a ++ forward_fill (ffAcc last a) b
  | [], b => rfl
  | e0 :: a, b => by
    rcases hmsg : e0.message with - | msg
    · rw [List.cons_append, forward_fill_cons_nomsg hmsg,
        forward_fill_cons_nomsg hmsg, ffAcc_cons_nomsg hmsg,
        forward_fill_append last a b, List.cons_append]
    · by_cases hrole : msg.role = assistantStr
      · rcases hmod : msg.model with - | m
        · cases last with
          | none =>
            rw [List.cons_append, forward_fill_cons_nofill hmsg hrole hmod,
              forward_fill_cons_nofill hmsg hrole hmod,
              ffAcc_cons_nomodel hmsg hrole hmod,
              forward_fill_append none a b, List.cons_append]
          | some m0 =>
            rw [List.cons_append, forward_fill_cons_fill hmsg hrole hmod,
              forward_fill_cons_fill hmsg hrole hmod,
              ffAcc_cons_nomodel hmsg hrole hmod,
              forward_fill_append (some m0) a b, List.cons_append]
        · rw [List.cons_append, forward_fill_cons_model hmsg hrole hmod,
            forward_fill_cons_model hmsg hrole hmod,
            ffAcc_cons_model hmsg hrole hmod,
            forward_fill_append (some m) a b, List.cons_append]
      · rw [List.cons_append, forward_fill_cons_nonasst hmsg hrole,
          forward_fill_cons_nonasst hmsg hrole, ffAcc_cons_nonasst hmsg hrole,
          forward_fill_append last a b, List.cons_append]

theorem ffAcc_append (last : Option (List Char)) :
    ∀ a b : List SessionEntry, ffAcc last (a ++ b) = ffAcc (ffAcc last a) b
  | [], b => rfl
  | e0 :: a, b => by
    rcases hmsg : e0.message with - | msg
    · rw [List.cons_append, ffAcc_cons_nomsg hmsg, ffAcc_cons_nomsg hmsg,
        ffAcc_append last a b]
    · by_cases hrole : msg.role = assistantStr
      · rcases hmod : msg.model with - | m
        · rw [List.cons_append, ffAcc_cons_nomodel hmsg hrole hmod,
            ffAcc_cons_nomodel hmsg hrole hmod, ffAcc_append last a b]
        · rw [List.cons_append, ffAcc_cons_model hmsg hrole hmod,
            ffAcc_cons_model hmsg hrole hmod, ffAcc_append (some m) a b]
      · rw [List.cons_append, ffAcc_cons_nonasst hmsg hrole,
          ffAcc_cons_nonasst hmsg hrole, ffAcc_append last a b]

/-- C5: after `backfill_assistant_models` (forward fill then backward fill),
every assistant entry carries a model provided some assistant entry in the
file carried one; when no assistant entry carries a model the list is
unchanged; and for assistant entries `[A (no model), B ("gpt-5"),
C (no model)]` in file order, after backfill all three carry `"gpt-5"`. -/
theorem c5_backfill_assistant_models_fills :
    (∀ entries : List SessionEntry,
        (∃ e ∈ entries, isAssistantMsg e = true ∧ entryHasModel e = true) →
        ∀ e ∈ backfill_assistant_models entries,
          isAssistantMsg e = true → entryHasModel e = true)
    ∧ (∀ entries : List SessionEntry,
        (∀ e ∈ entries, isAssistantMsg e = true → entryHasModel e = false) →
        backfill_assistant_models entries = entries)
    ∧ ((backfill_assistant_models
          [{ SessionEntry.mkDefault with
              entry_type := some assistantStr
              message := some ⟨assistantStr, MessageContent.Blocks [], none,
                none, none, none⟩ },
            { SessionEntry.mkDefault with
              entry_type := some assistantStr
              message := some ⟨assistantStr, MessageContent.Blocks [],
                some ['g', 'p', 't', '-', '5'], none, none, none⟩ },
            { SessionEntry.mkDefault with
              entry_type := some assistantStr
              message := some ⟨assistantStr, MessageContent.Blocks [], none,
                none, none, none⟩ }]).map entryModel =
        [some ['g', 'p', 't', '-', '5'], some ['g', 'p', 't', '-', '5'],
          some ['g', 'p', 't', '-', '5']]) := by
  refine ⟨?_, ?_, ?_⟩
  · rintro entries ⟨e0, hmem, hasst, hmod⟩ e he hasste
    obtain ⟨u, v, rfl⟩ := List.append_of_mem hmem
    obtain ⟨msg, hmsg⟩ : ∃ msg, e0.message = some msg := by
      rcases h : e0.message with - | msg
      · simp [isAssistantMsg, h] at hasst
      · exact ⟨msg, rfl⟩
    have hrole : msg.role = assistantStr := by
      simpa [isAssistantMsg, hmsg] using hasst
    obtain ⟨m0, hm0⟩ : ∃ m, msg.model = some m := by
      rcases h : msg.model with - | m
      · simp [entryHasModel, hmsg, h] at hmod
      · exact ⟨m, rfl⟩
    have hL : forward_fill none (u ++ e0 :: v) =
        forward_fill none u ++ (e0 :: forward_fill (some m0) v) := by
      rw [forward_fill_append, forward_fill_cons_model hmsg hrole hm0]
    have hfilled1 : ∀ x ∈ e0 :: forward_fill (some m0) v,
        isAssistantMsg x = true → entryHasModel x = true := by
      intro x hx hax
      rcases List.mem_cons.mp hx with rfl | hx
      · simp [entryHasModel, hmsg, hm0]
      · exact forward_fill_filled_of_some m0 v x hx hax
    have hfirstfilled :
        ∀ x ∈ (forward_fill (some m0) v).reverse ++ [e0],
          isAssistantMsg x = true → entryHasModel x = true := by
      intro x hx hax
      rcases List.mem_append.mp hx with hx | hx
      · exact hfilled1 x (List.mem_cons_of_mem _ (List.mem_reverse.mp hx)) hax
      · rw [List.mem_singleton.mp hx]
        exact hfilled1 e0 (List.mem_cons_self _ _) (by
          rw [List.mem_singleton.mp hx] at hax
          exact hax)
    have hacc : ffAcc none ((forward_fill (some m0) v).reverse ++ [e0]) =
        some m0 := by
      rw [ffAcc_append, ffAcc_cons_model hmsg hrole hm0]
      rfl
    have hback : backfill_assistant_models (u ++ e0 :: v) =
        (((forward_fill (some m0) v).reverse ++ [e0]) ++
          forward_fill (some m0) ((forward_fill none u).reverse)).reverse := by
      unfold backfill_assistant_models
      rw [hL, List.reverse_append, List.reverse_cons, List.append_assoc,
        ← List.append_assoc, forward_fill_append,
        forward_fill_id_of_filled none _ hfirstfilled, hacc]
    rw [hback] at he
    rcases List.mem_append.mp (List.mem_reverse.mp he) with hx | hx
    · exact hfirstfilled e hx hasste
    · exact forward_fill_filled_of_some m0 _ e hx hasste
  · intro entries h
    unfold backfill_assistant_models
    rw [forward_fill_id_of_unmodeled entries h,
      forward_fill_id_of_unmodeled entries.reverse
        (fun e he => h e (List.mem_reverse.mp he)),
      List.reverse_reverse]
  · decide

theorem c5_backfill_assistant_models_fills_witness :
    backfill_assistant_models [SessionEntry.mkDefault] = [SessionEntry.mkDefault] :=
  c5_backfill_assistant_models_fills.2.1 [SessionEntry.mkDefault] (by decide)

/-! ## Source-B forward scan: token-count usage attachment
(src/data/codex_session_reader.rs) -/

/-- The classified line triple produced by `parse_codex_line`. -/
structure CodexSessionLine where
  timestamp : Option (List Char)
  line_type : Option (List Char)
  payload : Json

/-- `parse_codex_line` on an already-parsed JSON value: read `timestamp`
and `type`, default the payload to the whole value, and infer
`session_meta` when no type tag is present but the payload has a string
`id` field. -/
def parse_codex_line (value : Json) : CodexSessionLine :=
  let timestamp := (value.get "timestamp".toList).bind Json.as_str
  let lt := (value.get "type".toList).bind Json.as_str
  let payload := (value.get "payload".toList).getD value
  let line_type :=
    if lt = none ∧ ((payload.get "id".toList).bind Json.as_str).isSome then
      some "session_meta".toList
    else lt
  ⟨timestamp, line_type, payload⟩

/-- `parse_usage` from src/data/codex_session_reader.rs. -/
def parse_usage (payload : Json) : Option Usage :=
  match payload.get "usage".toList with
  | none => none
  | some usage =>
    let input_tokens :=
      match (usage.get "input_tokens".toList).bind Json.as_u64 with
      | some n => some n
      | none => (usage.get "prompt_tokens".toList).bind Json.as_u64
    let output_tokens :=
      match (usage.get "output_tokens".toList).bind Json.as_u64 with
      | some n => some n
      | none => (usage.get "completion_tokens".toList).bind Json.as_u64
    let cache_creation_input_tokens :=
      (usage.get "cache_creation_input_tokens".toList).bind Json.as_u64
    let cache_read_input_tokens :=
      (usage.get "cache_read_input_tokens".toList).bind Json.as_u64
    if input_tokens = none ∧ output_tokens = none
        ∧ cache_creation_input_tokens = none ∧ cache_read_input_tokens = none then
      none
    else
      some ⟨input_tokens, output_tokens, cache_creation_input_tokens,
        cache_read_input_tokens⟩

/-- `parse_token_count_usage` from src/data/codex_session_reader.rs. -/
def parse_token_count_usage (payload : Json) : Option Usage :=
  if ¬ ((payload.get "type".toList).bind Json.as_str
      = some "token_count".toList) then
    none
  else
    match payload.get "info".toList with
    | none => none
    | some info =>
      match info.get "last_token_usage".toList with
      | none => none
      | some last =>
        let input_tokens := (last.get "input_tokens".toList).bind Json.as_u64
        let output_tokens := (last.get "output_tokens".toList).bind Json.as_u64
        let cached_input_tokens :=
          (last.get "cached_input_tokens".toList).bind Json.as_u64
        if input_tokens = none ∧ output_tokens = none
            ∧ cached_input_tokens = none then
          none
        else
          some ⟨input_tokens, output_tokens, none, cached_input_tokens⟩

/-- The `entries.get_mut(idx)` block of the `event_msg` arm: attach the
usage to entry `idx` only when its message currently has none. -/
def attachUsageAt (es : List SessionEntry) (idx : Nat) (u : Usage) :
    List SessionEntry :=
  match es.get? idx with
  | none => es
  | some e =>
    match e.message with
    | none => es
    | some msg =>
      if msg.usage = none then
        es.set idx { e with message := some { msg with usage := some u } }
      else es

/-- The mutable state of the `read_entries` forward scan. -/
structure ScanState where
  entries : List SessionEntry
  last_assistant_index : Option Nat
  last_model : Option (List Char)

/-- One iteration of the `read_entries` loop on a classified line. -/
def scanStep (st : ScanState) (line : CodexSessionLine) : ScanState :=
  if line.line_type = some "event_msg".toList then
    match parse_token_count_usage line.payload with
    | some usage =>
      match st.last_assistant_index with
      | some idx => { st with entries := attachUsageAt st.entries idx usage }
      | none => st
    | none => st
  else if line.line_type = some "turn_context".toList then
    { st with last_model := (line.payload.get "model".toList).bind Json.as_str }
  else if ¬ (line.line_type = some "response_item".toList) then st
  else if ¬ ((line.payload.get "type".toList).bind Json.as_str
      = some "message".toList) then st
  else
    let role := ((line.payload.get "role".toList).bind Json.as_str).getD []
    if ¬ (role = "user".toList ∨ role = assistantStr) then st
    else
      let blocks :=
        match line.payload.get "content".toList with
        | some (Json.arr items) =>
          items.filterMap fun item =>
            ((item.get "text".toList).bind Json.as_str).map ContentBlock.Text
        | _ => []
      if blocks.isEmpty then st
      else
        let model :=
          match (line.payload.get "model".toList).bind Json.as_str with
          | some m => some m
          | none => st.last_model
        let message : Message :=
          ⟨role, MessageContent.Blocks blocks, model, none, none,
            parse_usage line.payload⟩
        let entries := st.entries ++
          [{ SessionEntry.mkDefault with
              entry_type := some role
              message := some message
              timestamp := line.timestamp }]
        { entries := entries
          last_assistant_index :=
            if role = assistantStr then some (entries.length - 1)
            else st.last_assistant_index
          last_model := st.last_model }

/-- The entry `e` with usage `u` written into its message `msg`. -/
def withUsage (e : SessionEntry) (msg : Message) (u : Usage) : SessionEntry :=
  { e with message := some { msg with usage := some u } }

theorem attachUsageAt_of_no_usage {es : List SessionEntry} {i : Nat}
    {e : SessionEntry} {msg : Message} (hget : es.get? i = some e)
    (hmsg : e.message = some msg) (hus : msg.usage = none) (u : Usage) :
    attachUsageAt es i u = es.set i (withUsage e msg u) := by
  have hget2 : es[i]? = some e := by
    rw [← List.get?_eq_getElem?]
    exact hget
  simp [attachUsageAt, withUsage, hget2, hmsg, hus]

theorem attachUsageAt_of_usage {es : List SessionEntry} {i : Nat}
    {e : SessionEntry} {msg : Message} {u0 : Usage} (hget : es.get? i = some e)
    (hmsg : e.message = some msg) (hus : msg.usage = some u0) (u : Usage) :
    attachUsageAt es i u = es := by
  have hget2 : es[i]? = some e := by
    rw [← List.get?_eq_getElem?]
    exact hget
  simp [attachUsageAt, hget2, hmsg, hus]

theorem scanStep_event_msg {line : CodexSessionLine}
    (hlt : line.line_type = some "event_msg".toList) (st : ScanState) :
    scanStep st line =
      match parse_token_count_usage line.payload with
      | some usage =>
        match st.last_assistant_index with
        | some idx => { st with entries := attachUsageAt st.entries idx usage }
        | none => st
      | none => st := by
  simp [scanStep, hlt]

theorem scanStep_turn_context {line : CodexSessionLine}
    (h1 : ¬ line.line_type = some "event_msg".toList)
    (h2 : line.line_type = some "turn_context".toList) (st : ScanState) :
    scanStep st line =
      { st with last_model := (line.payload.get "model".toList).bind Json.as_str } := by
  unfold scanStep
  rw [if_neg h1, if_pos h2]

theorem scanStep_skip {line : CodexSessionLine}
    (h1 : ¬ line.line_type = some "event_msg".toList)
    (h2 : ¬ line.line_type = some "turn_context".toList)
    (h3 : ¬ line.line_type = some "response_item".toList) (st : ScanState) :
    scanStep st line = st := by
  unfold scanStep
  rw [if_neg h1, if_neg h2, if_pos h3]

/-- C6: during the forward scan, an `event_msg` line carrying a token-count
payload attaches the parsed `Usage` to the entry at the tracked
most-recently-appended assistant index, and only if that entry's message
currently has no usage; with an existing usage the step is a no-op, so a
second token-count event for the same entry never overwrites the first.
Whenever the tracked index changes it points at a freshly appended last
entry. -/
theorem c6_token_count_usage_first_wins :
    (∀ (st : ScanState) (line : CodexSessionLine) (u : Usage) (i : Nat)
      (e : SessionEntry) (msg : Message),
      line.line_type = some "event_msg".toList →
      parse_token_count_usage line.payload = some u →
      st.last_assistant_index = some i →
      st.entries.get? i = some e →
      e.message = some msg →
      ((msg.usage = none →
          scanStep st line =
            { st with entries := st.entries.set i (withUsage e msg u) })
        ∧ (∀ u0, msg.usage = some u0 → scanStep st line = st)
        ∧ (msg.usage = none →
            ∀ (line2 : CodexSessionLine) (u2 : Usage),
              line2.line_type = some "event_msg".toList →
              parse_token_count_usage line2.payload = some u2 →
              scanStep (scanStep st line) line2 = scanStep st line)))
    ∧ (∀ (st : ScanState) (line : CodexSessionLine),
        (scanStep st line).last_assistant_index ≠ st.last_assistant_index →
        (scanStep st line).last_assistant_index =
          some ((scanStep st line).entries.length - 1)
        ∧ (scanStep st line).entries.length = st.entries.length + 1) := by
  constructor
  · intro st line u i e msg hlt hparse hidx hget hmsg
    have hstep : ∀ hus : msg.usage = none,
        scanStep st line =
          { st with entries := st.entries.set i (withUsage e msg u) } := by
      intro hus
      rw [scanStep_event_msg hlt]
      simp only [hparse, hidx]
      rw [attachUsageAt_of_no_usage hget hmsg hus]
    refine ⟨hstep, ?_, ?_⟩
    · intro u0 hus
      rw [scanStep_event_msg hlt]
      simp only [hparse, hidx]
      rw [attachUsageAt_of_usage hget hmsg hus, ← hidx]
    · intro hus line2 u2 hlt2 hparse2
      rw [hstep hus]
      have hlen : i < st.entries.length := by
        rw [List.get?_eq_getElem?] at hget
        exact (List.getElem?_eq_some_iff.mp hget).1
      have hget2 :
          (st.entries.set i (withUsage e msg u)).get? i =
            some (withUsage e msg u) := by
        rw [List.get?_eq_getElem?, List.getElem?_set_self hlen]
      rw [scanStep_event_msg hlt2]
      simp only [hparse2, hidx]
      rw [attachUsageAt_of_usage hget2 rfl rfl]
  · intro st line hne
    by_cases h1 : line.line_type = some "event_msg".toList
    · exfalso
      rw [scanStep_event_msg h1] at hne
      rcases hp : parse_token_count_usage line.payload with - | u <;>
        simp only [hp] at hne
      · exact hne rfl
      · rcases hidx : st.last_assistant_index with - | j <;>
          simp only [hidx] at hne
        · exact hne rfl
        · exact hne rfl
    · by_cases h2 : line.line_type = some "turn_context".toList
      · exfalso
        rw [scanStep_turn_context h1 h2] at hne
        exact hne rfl
      · by_cases h3 : line.line_type = some "response_item".toList
        · unfold scanStep at hne ⊢
          rw [if_neg h1, if_neg h2, if_neg (not_not_intro h3)] at hne ⊢
          by_cases h4 : (line.payload.get "type".toList).bind Json.as_str
              = some "message".toList
          · rw [if_neg (not_not_intro h4)] at hne ⊢
            dsimp only at hne ⊢
            by_cases h5 :
                ((line.payload.get "role".toList).bind Json.as_str).getD []
                    = "user".toList
                ∨ ((line.payload.get "role".toList).bind Json.as_str).getD []
                    = assistantStr
            · rw [if_neg (not_not_intro h5)] at hne ⊢
              by_cases h6 :
                  (match line.payload.get "content".toList with
                    | some (Json.arr items) =>
                      items.filterMap fun item =>
                        ((Json.get item "text".toList).bind Json.as_str).map
                          ContentBlock.Text
                    | _ => ([] : List ContentBlock)).isEmpty
              · exfalso
                rw [if_pos h6] at hne
                exact hne rfl
              · rw [if_neg h6] at hne ⊢
                by_cases h7 :
                    ((line.payload.get "role".toList).bind Json.as_str).getD []
                      = assistantStr
                · rw [if_pos h7] at hne ⊢
                  simp [List.length_append]
                · exfalso
                  rw [if_neg h7] at hne
                  exact hne rfl
            · exfalso
              rw [if_pos h5] at hne
              exact hne rfl
          · exfalso
            rw [if_pos h4] at hne
            exact hne rfl
        · exfalso
          rw [scanStep_skip h1 h2 h3] at hne
          exact hne rfl

theorem c6_token_count_usage_first_wins_witness :
    scanStep
        ⟨[{ SessionEntry.mkDefault with
            entry_type := some assistantStr
            message := some ⟨assistantStr,
              MessageContent.Blocks [ContentBlock.Text ['h', 'i']], none, none,
              none, none⟩ }], some 0, none⟩
        ⟨none, some "event_msg".toList,
          Json.obj [("type".toList, Json.str "token_count".toList),
            ("info".toList, Json.obj [("last_token_usage".toList,
              Json.obj [("input_tokens".toList, Json.num 3),
                ("output_tokens".toList, Json.num 5)])])]⟩ =
      ⟨[withUsage
          { SessionEntry.mkDefault with
            entry_type := some assistantStr
            message := some ⟨assistantStr,
              MessageContent.Blocks [ContentBlock.Text ['h', 'i']], none, none,
              none, none⟩ }
          ⟨assistantStr, MessageContent.Blocks [ContentBlock.Text ['h', 'i']],
            none, none, none, none⟩
          ⟨some 3, some 5, none, none⟩], some 0, none⟩ :=
  (c6_token_count_usage_first_wins.1
    ⟨[{ SessionEntry.mkDefault with
        entry_type := some assistantStr
        message := some ⟨assistantStr,
          MessageContent.Blocks [ContentBlock.Text ['h', 'i']], none, none,
          none, none⟩ }], some 0, none⟩
    ⟨none, some "event_msg".toList,
      Json.obj [("type".toList, Json.str "token_count".toList),
        ("info".toList, Json.obj [("last_token_usage".toList,
          Json.obj [("input_tokens".toList, Json.num 3),
            ("output_tokens".toList, Json.num 5)])])]⟩
    ⟨some 3, some 5, none, none⟩ 0
    { SessionEntry.mkDefault with
      entry_type := some assistantStr
      message := some ⟨assistantStr,
        MessageContent.Blocks [ContentBlock.Text ['h', 'i']], none, none, none,
        none⟩ }
    ⟨assistantStr, MessageContent.Blocks [ContentBlock.Text ['h', 'i']], none,
      none, none, none⟩
    rfl (by decide) rfl rfl rfl).1 rfl

/-! ## History index: latest entry per session (src/tui/app.rs) -/

/-- `SessionSource` from src/tea. -/
inductive SessionSource where
  | Claude
  | Codex
deriving DecidableEq

/-- `HistoryItem` from src/tui/app.rs. -/
structure HistoryItem where
  session_id : List Char
  project_path : List Char
  display : List Char
  timestamp : Int
  source : SessionSource
deriving DecidableEq

/-- The dedup key used by `load_sessions`: the `(source, session-id)` pair. -/
def sessionKey (e : HistoryItem) : SessionSource × List Char :=
  (e.source, e.session_id)

/-- Stable insertion for the descending-by-timestamp sort: an element moves
ahead only of strictly older entries, so equal timestamps keep their
original relative order — the observable behaviour of Rust's stable
`sort_by(|a, b| b.timestamp.cmp(&a.timestamp))`. -/
def insertDesc (x : HistoryItem) : List HistoryItem → List HistoryItem
  | [] => [x]
  | y :: ys =>
    if y.timestamp < x.timestamp then x :: y :: ys else y :: insertDesc x ys

/-- Stable sort, newest first. -/
def sortByTimestampDesc : List HistoryItem → List HistoryItem
  | [] => []
  | x :: xs => insertDesc x (sortByTimestampDesc xs)

/-- The `seen_session_keys` filter of `load_sessions`: keep an entry only
when its `(source, session-id)` key has not been seen yet. -/
def dedupeFirstBy (seen : List (SessionSource × List Char)) :
    List HistoryItem → List HistoryItem
  | [] => []
  | x :: xs =>
    if sessionKey x ∈ seen then dedupeFirstBy seen xs
    else x :: dedupeFirstBy (sessionKey x :: seen) xs

/-- The per-project reduction of `App::load_sessions`: sort the project's
history entries by timestamp descending (stable), then keep only the first
entry per `(source, session-id)` key. -/
def latestPerSession (entries : List HistoryItem) : List HistoryItem :=
  dedupeFirstBy [] (sortByTimestampDesc entries)

theorem mem_insertDesc (x : HistoryItem) :
    ∀ (l : List HistoryItem) (y : HistoryItem),
      y ∈ insertDesc x l ↔ y = x ∨ y ∈ l
  | [], y => by simp [insertDesc]
  | z :: zs, y => by
    by_cases hk : z.timestamp < x.timestamp
    · simp [insertDesc, hk]
    · simp only [insertDesc, if_neg hk, List.mem_cons, mem_insertDesc x zs y]
      tauto

theorem mem_sortByTimestampDesc :
    ∀ (l : List HistoryItem) (y : HistoryItem),
      y ∈ sortByTimestampDesc l ↔ y ∈ l
  | [], y => by simp [sortByTimestampDesc]
  | x :: xs, y => by
    simp only [sortByTimestampDesc, mem_insertDesc, List.mem_cons,
      mem_sortByTimestampDesc xs y]

theorem pairwise_insertDesc (x : HistoryItem) :
    ∀ l : List HistoryItem,
      l.Pairwise (fun a b => b.timestamp ≤ a.timestamp) →
      (insertDesc x l).Pairwise (fun a b => b.timestamp ≤ a.timestamp)
  | [], _ => by simp [insertDesc]
  | y :: ys, hp => by
    rcases List.pairwise_cons.mp hp with ⟨hy, hys⟩
    by_cases hk : y.timestamp < x.timestamp
    · rw [insertDesc, if_pos hk]
      refine List.pairwise_cons.mpr ⟨?_, hp⟩
      intro b hb
      rcases List.mem_cons.mp hb with rfl | hb
      · omega
      · have := hy b hb
        omega
    · rw [insertDesc, if_neg hk]
      refine List.pairwise_cons.mpr ⟨?_, pairwise_insertDesc x ys hys⟩
      intro b hb
      rcases (mem_insertDesc x ys b).mp hb with rfl | hb
      · omega
      · exact hy b hb

theorem pairwise_sortByTimestampDesc :
    ∀ l : List HistoryItem,
      (sortByTimestampDesc l).Pairwise (fun a b => b.timestamp ≤ a.timestamp)
  | [] => by simp [sortByTimestampDesc]
  | x :: xs => pairwise_insertDesc x _ (pairwise_sortByTimestampDesc xs)

theorem mem_of_mem_dedupeFirstBy :
    ∀ (seen : List (SessionSource × List Char)) (l : List HistoryItem)
      (e : HistoryItem), e ∈ dedupeFirstBy seen l → e ∈ l
  | _, [], _, he => by simp [dedupeFirstBy] at he
  | seen, x :: xs, e, he => by
    by_cases hk : sessionKey x ∈ seen
    · rw [dedupeFirstBy, if_pos hk] at he
      exact List.mem_cons_of_mem _ (mem_of_mem_dedupeFirstBy seen xs e he)
    · rw [dedupeFirstBy, if_neg hk] at he
      rcases List.mem_cons.mp he with rfl | he
      · exact List.mem_cons_self _ _
      · exact List.mem_cons_of_mem _
          (mem_of_mem_dedupeFirstBy (sessionKey x :: seen) xs e he)

theorem key_not_seen_of_mem_dedupeFirstBy :
    ∀ (seen : List (SessionSource × List Char)) (l : List HistoryItem)
      (e : HistoryItem), e ∈ dedupeFirstBy seen l → sessionKey e ∉ seen
  | _, [], _, he => by simp [dedupeFirstBy] at he
  | seen, x :: xs, e, he => by
    by_cases hk : sessionKey x ∈ seen
    · rw [dedupeFirstBy, if_pos hk] at he
      exact key_not_seen_of_mem_dedupeFirstBy seen xs e he
    · rw [dedupeFirstBy, if_neg hk] at he
      rcases List.mem_cons.mp he with rfl | he
      · exact hk
      · have := key_not_seen_of_mem_dedupeFirstBy (sessionKey x :: seen) xs e he
        intro hs
        exact this (List.mem_cons_of_mem _ hs)

theorem nodup_keys_dedupeFirstBy :
    ∀ (seen : List (SessionSource × List Char)) (l : List HistoryItem),
      ((dedupeFirstBy seen l).map sessionKey).Nodup
  | _, [] => by simp [dedupeFirstBy]
  | seen, x :: xs => by
    by_cases hk : sessionKey x ∈ seen
    · rw [dedupeFirstBy, if_pos hk]
      exact nodup_keys_dedupeFirstBy seen xs
    · rw [dedupeFirstBy, if_neg hk, List.map_cons]
      refine List.nodup_cons.mpr
        ⟨?_, nodup_keys_dedupeFirstBy (sessionKey x :: seen) xs⟩
      intro hmem
      rcases List.mem_map.mp hmem with ⟨e, he, hke⟩
      have := key_not_seen_of_mem_dedupeFirstBy (sessionKey x :: seen) xs e he
      exact this (hke ▸ List.mem_cons_self _ _)

theorem cover_dedupeFirstBy :
    ∀ (seen : List (SessionSource × List Char)) (l : List HistoryItem)
      (e : HistoryItem), e ∈ l → sessionKey e ∉ seen →
      ∃ e2 ∈ dedupeFirstBy seen l, sessionKey e2 = sessionKey e
  | _, [], _, he, _ => by simp at he
  | seen, x :: xs, e, he, hs => by
    by_cases hk : sessionKey x ∈ seen
    · rw [dedupeFirstBy, if_pos hk]
      rcases List.mem_cons.mp he with rfl | he
      · exact absurd hk hs
      · exact cover_dedupeFirstBy seen xs e he hs
    · rw [dedupeFirstBy, if_neg hk]
      by_cases hsame : sessionKey e = sessionKey x
      · exact ⟨x, List.mem_cons_self _ _, hsame.symm⟩
      · rcases List.mem_cons.mp he with rfl | he
        · exact absurd rfl hsame
        · rcases cover_dedupeFirstBy (sessionKey x :: seen) xs e he (by
            intro hmem
            rcases List.mem_cons.mp hmem with h1 | h1
            · exact hsame h1
            · exact hs h1) with ⟨e2, he2, hk2⟩
          exact ⟨e2, List.mem_cons_of_mem _ he2, hk2⟩

theorem newest_wins_dedupeFirstBy :
    ∀ (seen : List (SessionSource × List Char)) (l : List HistoryItem),
      l.Pairwise (fun a b => b.timestamp ≤ a.timestamp) →
      ∀ e ∈ dedupeFirstBy seen l, ∀ e2 ∈ l,
        sessionKey e2 = sessionKey e → e2.timestamp ≤ e.timestamp
  | _, [], _, e, he, _, _, _ => by simp [dedupeFirstBy] at he
  | seen, x :: xs, hp, e, he, e2, he2, hkey => by
    rcases List.pairwise_cons.mp hp with ⟨hx, hxs⟩
    by_cases hk : sessionKey x ∈ seen
    · rw [dedupeFirstBy, if_pos hk] at he
      rcases List.mem_cons.mp he2 with rfl | he2
      · exfalso
        exact key_not_seen_of_mem_dedupeFirstBy seen xs e he (hkey ▸ hk)
      · exact newest_wins_dedupeFirstBy seen xs hxs e he e2 he2 hkey
    · rw [dedupeFirstBy, if_neg hk] at he
      rcases List.mem_cons.mp he with rfl | he
      · rcases List.mem_cons.mp he2 with rfl | he2
        · omega
        · exact hx e2 he2
      · have hne : sessionKey e ≠ sessionKey x := by
          intro hEq
          exact key_not_seen_of_mem_dedupeFirstBy (sessionKey x :: seen) xs e he
            (hEq ▸ List.mem_cons_self _ _)
        rcases List.mem_cons.mp he2 with rfl | he2
        · exact absurd hkey.symm hne
        · exact newest_wins_dedupeFirstBy (sessionKey x :: seen) xs hxs e he
            e2 he2 hkey

/-- C7: the per-project reduction of `load_sessions` processes history
entries in descending timestamp order and keeps only the first entry seen
per `(source, session-id)` key: every survivor comes from the input, keys
are unique among survivors, every input session id is represented, and the
surviving entry per key carries a maximal (newest) timestamp. -/
theorem c7_latest_entry_per_session_wins :
    ∀ entries : List HistoryItem,
      (∀ e ∈ latestPerSession entries, e ∈ entries)
      ∧ ((latestPerSession entries).map sessionKey).Nodup
      ∧ (∀ e ∈ entries,
          ∃ e2 ∈ latestPerSession entries, sessionKey e2 = sessionKey e)
      ∧ (∀ e ∈ latestPerSession entries, ∀ e2 ∈ entries,
          sessionKey e2 = sessionKey e → e2.timestamp ≤ e.timestamp) := by
  intro entries
  refine ⟨?_, nodup_keys_dedupeFirstBy [] _, ?_, ?_⟩
  · intro e he
    exact (mem_sortByTimestampDesc entries e).mp
      (mem_of_mem_dedupeFirstBy [] _ e he)
  · intro e he
    exact cover_dedupeFirstBy [] _ e
      ((mem_sortByTimestampDesc entries e).mpr he) (by simp)
  · intro e he e2 he2 hkey
    exact newest_wins_dedupeFirstBy [] _ (pairwise_sortByTimestampDesc entries)
      e he e2 ((mem_sortByTimestampDesc entries e2).mpr he2) hkey

theorem c7_latest_entry_per_session_wins_witness :
    (⟨['s'], ['p'], ['a'], 1, SessionSource.Claude⟩ : HistoryItem).timestamp ≤
      (⟨['s'], ['p'], ['b'], 5, SessionSource.Claude⟩ : HistoryItem).timestamp :=
  (c7_latest_entry_per_session_wins
    [⟨['s'], ['p'], ['a'], 1, SessionSource.Claude⟩,
      ⟨['s'], ['p'], ['b'], 5, SessionSource.Claude⟩]).2.2.2
    ⟨['s'], ['p'], ['b'], 5, SessionSource.Claude⟩ (by decide)
    ⟨['s'], ['p'], ['a'], 1, SessionSource.Claude⟩ (by decide) (by decide)

/-! ## Export filename generation (src/export/writer.rs) -/

/-- `Session::project_name`: the part of the project path after the last
`/` (`project.rsplit('/').next()`). -/
def Session.project_name (s : Session) : List Char :=
  s.project.foldl (fun acc c => if c = '/' then [] else acc ++ [c]) []

/-- Model of Rust `char::is_alphanumeric` (Unicode alphabetic or numeric).
The table is exact for every code point below 0x100 (ASCII and Latin-1);
no theorem below evaluates it above that range. -/
def rustIsAlphanumeric (c : Char) : Bool :=
  let n := c.toNat
  decide ((48 ≤ n ∧ n ≤ 57) ∨ (65 ≤ n ∧ n ≤ 90) ∨ (97 ≤ n ∧ n ≤ 122)
    ∨ n = 0xAA ∨ n = 0xB5 ∨ n = 0xBA
    ∨ n = 0xB2 ∨ n = 0xB3 ∨ n = 0xB9
    ∨ (0xBC ≤ n ∧ n ≤ 0xBE)
    ∨ (0xC0 ≤ n ∧ n ≤ 0xD6) ∨ (0xD8 ≤ n ∧ n ≤ 0xF6)
    ∨ (0xF8 ≤ n ∧ n ≤ 0xFF))

/-- A decimal digit as a character. -/
def digitChar (d : Nat) : Char := Char.ofNat (48 + d)

/-- Decimal digits of `n`, most significant first (`fuel`-bounded structural
recursion; `n + 1` units of fuel always suffice). -/
def natDigitsAux : Nat → Nat → List Char
  | 0, _ => []
  | fuel + 1, n =>
    if n < 10 then [digitChar n]
    else natDigitsAux fuel (n / 10) ++ [digitChar (n % 10)]

/-- Decimal rendering of a natural number. -/
def natDigits (n : Nat) : List Char := natDigitsAux (n + 1) n

/-- Zero-pad a decimal rendering to width `w`. -/
def padNat (w n : Nat) : List Char :=
  List.replicate (w - (natDigits n).length) '0' ++ natDigits n

/-- chrono's `format("%Y%m%d_%H%M")` on the calendar fields. -/
def formatDateYmdHm (dt : UtcDateTime) : List Char :=
  padNat 4 dt.year ++ padNat 2 dt.month ++ padNat 2 dt.day ++ ['_']
    ++ padNat 2 dt.hour ++ padNat 2 dt.minute

/-- `generate_filename` from src/export/writer.rs: sanitize the project
name keeping Rust-alphanumeric characters plus `-` and `_`, render the
start date (or `"unknown"`), take the first 8 characters of the session id,
and join with `_` and the format extension. -/
def generate_filename (session : Session) (format : ExportFormat) : List Char :=
  let project_name := (Session.project_name session).map fun c =>
    if rustIsAlphanumeric c || c = '-' || c = '_' then c else '_'
  let date_str :=
    match session.started_at with
    | some dt => formatDateYmdHm dt
    | none => "unknown".toList
  let session_id_short := session.id.take 8
  project_name ++ ['_'] ++ date_str ++ ['_'] ++ session_id_short ++ ['.']
    ++ format.extension

/-- Modelled from the claim's words: sanitization replaces every character
outside `[A-Za-z0-9_-]` (ASCII only) with `_`. -/
def spec_sanitize_ascii (s : List Char) : List Char :=
  s.map fun c =>
    if ('A' ≤ c ∧ c ≤ 'Z') ∨ ('a' ≤ c ∧ c ≤ 'z') ∨ ('0' ≤ c ∧ c ≤ '9')
        ∨ c = '_' ∨ c = '-' then c
    else '_'

/-- Modelled from the claim's words: the filename
`{sanitized-project}_{YYYYMMDD_HHMM | "unknown"}_{first 8 chars of id}.{md|json}`
with the ASCII-only sanitization the claim states. -/
def spec_generate_filename (session : Session) (format : ExportFormat) :
    List Char :=
  spec_sanitize_ascii (Session.project_name session) ++ ['_']
    ++ (match session.started_at with
        | some dt => formatDateYmdHm dt
        | none => "unknown".toList) ++ ['_']
    ++ session.id.take 8 ++ ['.'] ++ format.extension

/-- The amended sanitization: every character that is not Rust-alphanumeric
(Unicode) and not `-` or `_` becomes `_`; non-ASCII alphanumerics are kept. -/
def amended_sanitize (s : List Char) : List Char :=
  s.map fun c => if rustIsAlphanumeric c || c = '-' || c = '_' then c else '_'

/-- The filename shape with the amended sanitization. -/
def amended_generate_filename (session : Session) (format : ExportFormat) :
    List Char :=
  amended_sanitize (Session.project_name session) ++ ['_']
    ++ (match session.started_at with
        | some dt => formatDateYmdHm dt
        | none => "unknown".toList) ++ ['_']
    ++ session.id.take 8 ++ ['.'] ++ format.extension

/-- C8 counterexample: for a project name containing `é` (U+00E9, a Unicode
alphanumeric outside `[A-Za-z0-9_-]`), the generated filename keeps the
character instead of replacing it with `_`, so the claim's ASCII
sanitization is not what the code computes. -/
theorem c8_filename_ascii_sanitization_counterexample :
    generate_filename
        ⟨"abcdefgh-xyz".toList, ('/' :: 'p' :: '/' :: Char.ofNat 0xE9 :: []),
          none, [], none, none⟩ ExportFormat.Markdown ≠
      spec_generate_filename
        ⟨"abcdefgh-xyz".toList, ('/' :: 'p' :: '/' :: Char.ofNat 0xE9 :: []),
          none, [], none, none⟩ ExportFormat.Markdown := by
  decide

/-- C8 (amended): for every session and export format the generated
filename is `{sanitized-project}_{YYYYMMDD_HHMM | "unknown"}_{first 8
characters of the session id}.{md|json}`, where sanitization replaces every
character that is neither Rust-alphanumeric (Unicode) nor `-` nor `_` with
`_`. -/
theorem c8_generate_filename_shape :
    ∀ (session : Session) (format : ExportFormat),
      generate_filename session format =
        amended_generate_filename session format := by
  intro session format
  unfold generate_filename amended_generate_filename amended_sanitize
  rfl

theorem generate_filename_sample :
    generate_filename
        ⟨"abc".toList, "/p/my_proj".toList, none, [], some ⟨2025, 1, 2, 3, 4⟩,
          none⟩ ExportFormat.Json =
      "my_proj_20250102_0304_abc.json".toList := by
  decide

/-! ## Cost rates (src/domain/billing.rs) -/

/-- `CostRate` from src/domain/billing.rs.  The `f64` dollar rates are
modelled exactly in the rationals (every literal in the table is exactly
representable). -/
structure CostRate where
  input_per_million : Rat
  output_per_million : Rat
deriving DecidableEq

/-- `cost_rate_for_model`: lowercase the model name, then try the
(specific-before-generic) substring keys in source order and return the
first matching rate. -/
def cost_rate_for_model (model : List Char) : Option CostRate :=
  let model := toLowercase model
  if strContains model "claude-4-5-opus".toList || strContains model "claude-4-opus".toList || strContains model "opus-4-5".toList || strContains model "opus-4".toList then
    some ⟨5, 25⟩
  else if strContains model "claude-3-5-sonnet".toList || strContains model "claude-3-7-sonnet".toList then
    some ⟨3, 15⟩
  else if strContains model "claude-3-5-haiku".toList || strContains model "claude-3-haiku".toList then
    some ⟨1/4, 5/4⟩
  else if strContains model "claude-3-opus".toList then
    some ⟨15, 75⟩
  else if strContains model "claude-3-sonnet".toList then
    some ⟨3, 15⟩
  else if strContains model "gpt-5.2-pro".toList then
    some ⟨21, 168⟩
  else if strContains model "gpt-5-pro".toList then
    some ⟨15, 120⟩
  else if strContains model "gpt-5.2".toList || strContains model "gpt-5-2".toList then
    some ⟨7/4, 14⟩
  else if strContains model "gpt-5-mini".toList then
    some ⟨1/4, 2⟩
  else if strContains model "gpt-5-nano".toList then
    some ⟨1/20, 2/5⟩
  else if strContains model "gpt-5".toList then
    some ⟨5/4, 10⟩
  else none

/-- Modelled from the spec: "Usage: four independently-optional token
counters"; the total input tokens of a usage record, absent counters
counting as zero (the `Usage::total_input_tokens` helper is not part of the
sources under verification). -/
def Usage.total_input_tokens (u : Usage) : Nat :=
  u.input_tokens.getD 0 + u.cache_creation_input_tokens.getD 0
    + u.cache_read_input_tokens.getD 0

/-- Modelled from the spec: the total output tokens of a usage record,
an absent counter counting as zero. -/
def Usage.total_output_tokens (u : Usage) : Nat :=
  u.output_tokens.getD 0

/-- `estimate_cost_usd`: `None` when no rate matches, otherwise the linear
per-million-token cost. -/
def estimate_cost_usd (model : List Char) (usage : Usage) : Option Rat :=
  match cost_rate_for_model model with
  | none => none
  | some rate =>
    some ((usage.total_input_tokens : Rat) * rate.input_per_million / 1000000
      + (usage.total_output_tokens : Rat) * rate.output_per_million / 1000000)

/-- The rate table in source order: each row's substring keys with its
rate. -/
def cost_rate_table : List (List (List Char) × CostRate) :=
  [(["claude-4-5-opus".toList, "claude-4-opus".toList, "opus-4-5".toList, "opus-4".toList], ⟨5, 25⟩),
  (["claude-3-5-sonnet".toList, "claude-3-7-sonnet".toList], ⟨3, 15⟩),
  (["claude-3-5-haiku".toList, "claude-3-haiku".toList], ⟨1/4, 5/4⟩),
  (["claude-3-opus".toList], ⟨15, 75⟩),
  (["claude-3-sonnet".toList], ⟨3, 15⟩),
  (["gpt-5.2-pro".toList], ⟨21, 168⟩),
  (["gpt-5-pro".toList], ⟨15, 120⟩),
  (["gpt-5.2".toList, "gpt-5-2".toList], ⟨7/4, 14⟩),
  (["gpt-5-mini".toList], ⟨1/4, 2⟩),
  (["gpt-5-nano".toList], ⟨1/20, 2/5⟩),
  (["gpt-5".toList], ⟨5/4, 10⟩)]

theorem cost_rate_for_model_eq_find (model : List Char) :
    cost_rate_for_model model =
      (cost_rate_table.find? fun p =>
        p.1.any fun k => strContains (toLowercase model) k).map Prod.snd := by
  unfold cost_rate_for_model cost_rate_table
  by_cases h1 : strContains (toLowercase model) "claude-4-5-opus".toList || strContains (toLowercase model) "claude-4-opus".toList || strContains (toLowercase model) "opus-4-5".toList || strContains (toLowercase model) "opus-4".toList
  · rw [if_pos h1, List.find?_cons_of_pos _ (by simpa [or_assoc, and_assoc] using h1)]
    rfl
  rw [if_neg h1, List.find?_cons_of_neg _ (by simpa [or_assoc, and_assoc] using h1)]
  by_cases h2 : strContains (toLowercase model) "claude-3-5-sonnet".toList || strContains (toLowercase model) "claude-3-7-sonnet".toList
  · rw [if_pos h2, List.find?_cons_of_pos _ (by simpa [or_assoc, and_assoc] using h2)]
    rfl
  rw [if_neg h2, List.find?_cons_of_neg _ (by simpa [or_assoc, and_assoc] using h2)]
  by_cases h3 : strContains (toLowercase model) "claude-3-5-haiku".toList || strContains (toLowercase model) "claude-3-haiku".toList
  · rw [if_pos h3, List.find?_cons_of_pos _ (by simpa [or_assoc, and_assoc] using h3)]
    rfl
  rw [if_neg h3, List.find?_cons_of_neg _ (by simpa [or_assoc, and_assoc] using h3)]
  by_cases h4 : strContains (toLowercase model) "claude-3-opus".toList
  · rw [if_pos h4, List.find?_cons_of_pos _ (by simpa [or_assoc, and_assoc] using h4)]
    rfl
  rw [if_neg h4, List.find?_cons_of_neg _ (by simpa [or_assoc, and_assoc] using h4)]
  by_cases h5 : strContains (toLowercase model) "claude-3-sonnet".toList
  · rw [if_pos h5, List.find?_cons_of_pos _ (by simpa [or_assoc, and_assoc] using h5)]
    rfl
  rw [if_neg h5, List.find?_cons_of_neg _ (by simpa [or_assoc, and_assoc] using h5)]
  by_cases h6 : strContains (toLowercase model) "gpt-5.2-pro".toList
  · rw [if_pos h6, List.find?_cons_of_pos _ (by simpa [or_assoc, and_assoc] using h6)]
    rfl
  rw [if_neg h6, List.find?_cons_of_neg _ (by simpa [or_assoc, and_assoc] using h6)]
  by_cases h7 : strContains (toLowercase model) "gpt-5-pro".toList
  · rw [if_pos h7, List.find?_cons_of_pos _ (by simpa [or_assoc, and_assoc] using h7)]
    rfl
  rw [if_neg h7, List.find?_cons_of_neg _ (by simpa [or_assoc, and_assoc] using h7)]
  by_cases h8 : strContains (toLowercase model) "gpt-5.2".toList || strContains (toLowercase model) "gpt-5-2".toList
  · rw [if_pos h8, List.find?_cons_of_pos _ (by simpa [or_assoc, and_assoc] using h8)]
    rfl
  rw [if_neg h8, List.find?_cons_of_neg _ (by simpa [or_assoc, and_assoc] using h8)]
  by_cases h9 : strContains (toLowercase model) "gpt-5-mini".toList
  · rw [if_pos h9, List.find?_cons_of_pos _ (by simpa [or_assoc, and_assoc] using h9)]
    rfl
  rw [if_neg h9, List.find?_cons_of_neg _ (by simpa [or_assoc, and_assoc] using h9)]
  by_cases h10 : strContains (toLowercase model) "gpt-5-nano".toList
  · rw [if_pos h10, List.find?_cons_of_pos _ (by simpa [or_assoc, and_assoc] using h10)]
    rfl
  rw [if_neg h10, List.find?_cons_of_neg _ (by simpa [or_assoc, and_assoc] using h10)]
  by_cases h11 : strContains (toLowercase model) "gpt-5".toList
  · rw [if_pos h11, List.find?_cons_of_pos _ (by simpa [or_assoc, and_assoc] using h11)]
    rfl
  rw [if_neg h11, List.find?_cons_of_neg _ (by simpa [or_assoc, and_assoc] using h11)]
  rfl

theorem strContains_correct :
    ∀ hay pat : List Char, strContains hay pat = true ↔ pat <:+: hay
  | [], pat => by
    rw [strContains]
    cases pat with
    | nil => simp
    | cons p ps => simp [List.isPrefixOf_iff_prefix]
  | x :: t, pat => by
    rw [strContains]
    by_cases hp : pat.isPrefixOf (x :: t)
    · rw [if_pos hp]
      simp only [true_iff]
      exact (List.isPrefixOf_iff_prefix.mp hp).isInfix
    · rw [if_neg hp, strContains_correct t pat, List.infix_cons_iff]
      constructor
      · exact Or.inr
      · rintro (hpre | hinf)
        · exact absurd (List.isPrefixOf_iff_prefix.mpr hpre) hp
        · exact hinf

/-- C9: the rate lookup lowercases the model and returns the first
(substring) match in the source's specific-before-generic order; a model
containing `gpt-5-pro` (and none of the keys tried before it) also contains
the generic `gpt-5` key yet resolves to the specific `gpt-5-pro` rate; and
an unmatched model yields no cost from `cost_rate_for_model` and
`estimate_cost_usd` alike, never a zero cost. -/
theorem c9_cost_rate_specific_before_generic :
    (∀ model : List Char,
        cost_rate_for_model model =
          (cost_rate_table.find? fun p =>
            p.1.any fun k => strContains (toLowercase model) k).map Prod.snd)
    ∧ (∀ model : List Char,
        strContains (toLowercase model) "gpt-5-pro".toList = true →
        (∀ k ∈ ["claude-4-5-opus".toList, "claude-4-opus".toList,
            "opus-4-5".toList, "opus-4".toList, "claude-3-5-sonnet".toList,
            "claude-3-7-sonnet".toList, "claude-3-5-haiku".toList,
            "claude-3-haiku".toList, "claude-3-opus".toList,
            "claude-3-sonnet".toList, "gpt-5.2-pro".toList],
          strContains (toLowercase model) k = false) →
        strContains (toLowercase model) "gpt-5".toList = true
        ∧ cost_rate_for_model model = some ⟨15, 120⟩)
    ∧ (∀ (model : List Char) (usage : Usage),
        cost_rate_for_model model = none →
        estimate_cost_usd model usage = none) := by
  refine ⟨cost_rate_for_model_eq_find, ?_, ?_⟩
  · intro model hpro hnone
    have hgeneric : strContains (toLowercase model) "gpt-5".toList = true := by
      rw [strContains_correct] at hpro ⊢
      exact List.IsInfix.trans (by decide) hpro
    refine ⟨hgeneric, ?_⟩
    have hk1 := hnone "claude-4-5-opus".toList (by decide)
    have hk2 := hnone "claude-4-opus".toList (by decide)
    have hk3 := hnone "opus-4-5".toList (by decide)
    have hk4 := hnone "opus-4".toList (by decide)
    have hk5 := hnone "claude-3-5-sonnet".toList (by decide)
    have hk6 := hnone "claude-3-7-sonnet".toList (by decide)
    have hk7 := hnone "claude-3-5-haiku".toList (by decide)
    have hk8 := hnone "claude-3-haiku".toList (by decide)
    have hk9 := hnone "claude-3-opus".toList (by decide)
    have hk10 := hnone "claude-3-sonnet".toList (by decide)
    have hk11 := hnone "gpt-5.2-pro".toList (by decide)
    unfold cost_rate_for_model
    rw [if_neg (by
        simp only [Bool.or_eq_true, not_or, Bool.not_eq_true]
        exact ⟨⟨⟨hk1, hk2⟩, hk3⟩, hk4⟩),
      if_neg (by
        simp only [Bool.or_eq_true, not_or, Bool.not_eq_true]
        exact ⟨hk5, hk6⟩),
      if_neg (by
        simp only [Bool.or_eq_true, not_or, Bool.not_eq_true]
        exact ⟨hk7, hk8⟩),
      if_neg (by simp only [Bool.not_eq_true]; exact hk9),
      if_neg (by simp only [Bool.not_eq_true]; exact hk10),
      if_neg (by simp only [Bool.not_eq_true]; exact hk11),
      if_pos hpro]
  · intro model usage hnone
    unfold estimate_cost_usd
    rw [hnone]

theorem c9_cost_rate_specific_before_generic_witness :
    strContains (toLowercase "GPT-5-Pro".toList) "gpt-5".toList = true
    ∧ cost_rate_for_model "GPT-5-Pro".toList = some ⟨15, 120⟩ :=
  c9_cost_rate_specific_before_generic.2.1 "GPT-5-Pro".toList (by decide)
    (by decide)
